import Mathlib

/-!
Verification of the consistent-hashing library `chash` (file `chash.go`).

The Go code is shallowly embedded: the `cHash` struct becomes `State`, every
exported method becomes a total Lean function on `State`, float64 capacities
become exact rationals, and the one loop without a syntactic termination
measure (`members.fillClosest`) is given explicit fuel; `none` marks the
configurations on which the Go loop would not terminate.  The `sync.RWMutex`
is not modeled: every operation holds it for its whole body, so the observable
semantics is that of sequential whole-state functions.
-/

/-- The `Member` interface (`Id() string`, `Capacity() float64`).  Capacities
are embedded as exact rationals. -/
structure Member where
  id : String
  capacity : ℚ
deriving DecidableEq, Inhabited

/-- The ring-entry struct `member` (chash.go:289-293): identity hash, the
per-distribution quota `pieces`, and the embedded `Member`. -/
structure member where
  hash : Nat
  pieces : Int
  mem : Member
deriving DecidableEq, Inhabited

/-- The hash and member of a ring entry (everything except the transient
`pieces` counter). -/
def memberKey (e : member) : Nat × Member := (e.hash, e.mem)

/-- Error kinds: the four sentinel errors of chash.go:12-17 plus the
configuration errors produced by `Config.Validate`. -/
inductive Err where
  | memberExists
  | memberNotExists
  | partitionNotExists
  | invalidCapacity
  | invalidConfig
deriving DecidableEq

/-- `Config` (chash.go:75-82).  The pluggable `Hasher` is modeled as a
function from strings (all hashed byte sequences in the code are strings)
to hash values. -/
structure Config where
  hasher : String → Nat
  partitionCount : Nat
  replicationFactor : Int

/-- The `cHash` struct (chash.go:94-101).  The Go `map[string]Member` is
modeled as an association list with overwrite-on-insert, so its length is the
map's size. -/
structure State where
  config : Config
  members : List (String × Member)
  membersSet : List member
  partitions : List (List Member)
  partitionHashes : List Nat

/-- Go map membership test `_, ok := c.members[id]`. -/
def mapHasKey (l : List (String × Member)) (k : String) : Bool :=
  l.any (fun p => p.1 == k)

/-- Go map insert `c.members[id] = m` (overwrites an existing key). -/
def mapInsert (l : List (String × Member)) (k : String) (v : Member) :
    List (String × Member) :=
  if l.any (fun p => p.1 == k) then l.map (fun p => if p.1 == k then (k, v) else p)
  else l ++ [(k, v)]

/-- Go map delete `delete(c.members, id)`. -/
def mapErase (l : List (String × Member)) (k : String) : List (String × Member) :=
  l.filter (fun p => !(p.1 == k))

/-- Go `int(x)` conversion of a float64: truncation toward zero, taken on the
exact rational value. -/
def ratTrunc (q : ℚ) : Int := q.num.tdiv q.den

/-- `Config.Validate` (chash.go:84-92): fails unless the replication factor is
at least 1 and the partition count at least 10. -/
def Config.Validate (c : Config) : Option Err :=
  if c.replicationFactor < 1 then some .invalidConfig
  else if c.partitionCount < 10 then some .invalidConfig
  else none

/-- `cHash.init` (chash.go:103-114): validate, then precompute the partition
hashes `hash("p" + i)` and allocate the empty store, ring and table. -/
def initState (c : Config) : State :=
  { config := c
    members := []
    membersSet := []
    partitions := (List.range c.partitionCount).map (fun _ => [])
    partitionHashes := (List.range c.partitionCount).map (fun i => c.hasher ("p" ++ toString i)) }

/-- The `if c.ReplicationFactor == 0 { c.ReplicationFactor = 1 }` normalization
of `New` (chash.go:29-31). -/
def normalizeConfig (c : Config) : Config :=
  if c.replicationFactor = 0 then { c with replicationFactor := 1 } else c

/-- `New` (chash.go:25-37): a zero `ReplicationFactor` is replaced by 1, then
the config is validated and the state initialized.  (The nil-hasher default of
the Go code is not modeled: a hasher function is always present.) -/
def New (c : Config) : Except Err State :=
  match (normalizeConfig c).Validate with
  | some e => .error e
  | none => .ok (initState (normalizeConfig c))

/-- `sort.Sort(c.membersSet)` with `members.Less` (chash.go:301-303), which
compares hashes only.  Modeled as a stable insertion sort for the reflexive
closure of `Less`; the result is nondecreasing in `hash`.  Go's `sort.Sort`
guarantees only a `Less`-sorted permutation and runs a plain insertion sort on
short slices, which keeps equal-hash entries in slice order exactly as the
stable model does. -/
def sortMembers (l : List member) : List member :=
  List.insertionSort (fun a b => a.hash ≤ b.hash) l

/-- `sort.Search(len(m), func(i) { return m[i].hash >= h })`: on the
hash-sorted ring the predicate is monotone, so the binary search returns the
first index satisfying it (`len(m)` when none), i.e. `List.findIdx`. -/
def searchGe (l : List member) (h : Nat) : Nat := l.findIdx (fun e => h ≤ e.hash)

/-- `sort.Search` with predicate `m[i].hash > h` (GetNext, chash.go:208-210). -/
def searchGt (l : List member) (h : Nat) : Nat := l.findIdx (fun e => h < e.hash)

/-- `m[idx].pieces--` (chash.go:334). -/
def decAt : List member → Nat → List member
  | [], _ => []
  | e :: t, 0 => { e with pieces := e.pieces - 1 } :: t
  | e :: t, i + 1 => e :: decAt t i

/-- The `if idx == m.Len() { idx = 0 }` wrap at the top of each iteration of
`members.fillClosest` (chash.go:325-327). -/
def wrapIdx (n idx : Nat) : Nat := if idx = n then 0 else idx

/-- The loop of `members.fillClosest` (chash.go:324-340), with explicit fuel.
Arguments: the required count `rf = len(ms)`, the remaining fuel, the current
ring `m` (its `pieces` are mutated in place), the walk index `idx` (always
`≤ m.length`), the indices already chosen for this partition (`foundIdx`),
the overflow counter, and the members chosen so far (`ms[0:found]`).  Returns
`none` when the fuel runs out, i.e. when the Go loop would still be running. -/
def fillGo (rf : Nat) : Nat → List member → Nat → List Nat → Nat → List Member →
    Option (List member × List Member)
  | fuel, m, idx, foundIdx, overflow, acc =>
    if rf ≤ acc.length then some (m, acc)
    else
      match fuel with
      | 0 => none
      | fuel + 1 =>
        if wrapIdx m.length idx ∈ foundIdx then
          fillGo rf fuel m (wrapIdx m.length idx + 1) foundIdx (overflow + 1) acc
        else if (m.getD (wrapIdx m.length idx) default).pieces > -(overflow : Int) then
          fillGo rf fuel (decAt m (wrapIdx m.length idx)) (wrapIdx m.length idx + 1)
            (foundIdx ++ [wrapIdx m.length idx]) overflow
            (acc ++ [(m.getD (wrapIdx m.length idx) default).mem])
        else
          fillGo rf fuel m (wrapIdx m.length idx + 1) foundIdx overflow acc

/-- An upper bound on how negative any quota in the ring is. -/
def maxNegPieces (l : List member) : Nat :=
  l.foldr (fun e a => max (-e.pieces).toNat a) 0

/-- Fuel sufficient for every terminating fill walk (see the completion lemmas
below): `(rf+1)·(mn+2)·(n+2)` where `mn` bounds how negative quotas are. -/
def fillFuel (n rf mn : Nat) : Nat := (rf + 1) * (mn + 2) * (n + 2)

/-- `members.fillClosest` (chash.go:309-341) for one partition hash `h` and
target list length `rf = len(ms)`: binary-search the start position, then walk
the circular ring.  Returns the ring with decremented quotas and the chosen
members, or `none` if the walk does not terminate. -/
def fillClosest (m : List member) (h : Nat) (rf : Nat) :
    Option (List member × List Member) :=
  fillGo rf (fillFuel m.length rf (maxNegPieces m)) m (searchGe m h) [] 0 []

/-- `totalCapacity` accumulation of chash.go:267-270. -/
def totalCapacity (l : List member) : ℚ := l.foldl (fun a e => a + e.mem.capacity) 0

/-- The effective replication factor (chash.go:271-274):
`rf := ReplicationFactor; if len(membersSet) < rf { rf = len(membersSet) }`. -/
def effectiveRF (replicationFactor : Int) (n : Nat) : Int :=
  min replicationFactor (n : Int)

/-- The quota pass of `cHash.distribute` (chash.go:275-278):
`pieces = int((float64(PartitionCount)*float64(rf))/(totalCapacity/capacity)) + 1`. -/
def computePieces (c : Config) (l : List member) : List member :=
  let total := totalCapacity l
  let rf := effectiveRF c.replicationFactor l.length
  l.map (fun e =>
    { e with
      pieces := ratTrunc (((c.partitionCount : ℚ) * (rf : ℚ)) / (total / e.mem.capacity)) + 1 })

/-- The per-partition loop of `cHash.distribute` (chash.go:280-286): one
`fillClosest` per partition hash, threading the mutated ring through. -/
def fillAll (rf : Nat) : List member → List Nat → Option (List member × List (List Member))
  | m, [] => some (m, [])
  | m, h :: hs =>
    match fillClosest m h rf with
    | none => none
    | some (m', part) =>
      match fillAll rf m' hs with
      | none => none
      | some (m'', parts) => some (m'', part :: parts)

/-- `cHash.distribute` (chash.go:260-287).  With an empty ring every partition
becomes empty.  Otherwise quotas are recomputed and every partition's member
list is rebuilt by `fillClosest`.  The Go code reuses a partition's slice when
its length already equals `rf` but overwrites all `rf` slots, so the old table
contents never influence the result and the table is rebuilt functionally
here.  `none` marks a non-terminating fill walk. -/
def distribute (σ : State) : Option State :=
  if σ.membersSet.length = 0 then
    some { σ with partitions := σ.partitions.map (fun _ => []) }
  else
    match fillAll ((effectiveRF σ.config.replicationFactor σ.membersSet.length).toNat)
        (computePieces σ.config σ.membersSet) σ.partitionHashes with
    | none => none
    | some (m', parts) => some { σ with membersSet := m', partitions := parts }

/-- `cHash.addMembers` (chash.go:130-141): append a ring position (with zero
`pieces`) and a store entry per member, re-sort the ring, redistribute. -/
def addMembersCore (σ : State) (ms : List Member) : Option State :=
  distribute
    { σ with
      membersSet := sortMembers
        (σ.membersSet ++ ms.map (fun m => { hash := σ.config.hasher m.id, pieces := 0, mem := m }))
      members := ms.foldl (fun acc m => mapInsert acc m.id m) σ.members }

/-- The validation loop of `AddMembers` (chash.go:119-126): members are
scanned in argument order; for each, the capacity check precedes the
duplicate-identity check, and identities are checked against the pre-call
store only. -/
def addValidate (store : List (String × Member)) : List Member → Option Err
  | [] => none
  | m :: rest =>
    if m.capacity ≤ 0 then some .invalidCapacity
    else if mapHasKey store m.id then some .memberExists
    else addValidate store rest

/-- `AddMembers` (chash.go:116-128).  `.ok none` marks the (never observed)
case in which the redistribution loop would not terminate. -/
def AddMembers (σ : State) (ms : List Member) : Except Err (Option State) :=
  match addValidate σ.members ms with
  | some e => .error e
  | none => .ok (addMembersCore σ ms)

/-- `RemoveMembers` (chash.go:143-172): every identity must exist; then ring
entries and store records of the given identities are removed and the table
redistributed. -/
def RemoveMembers (σ : State) (ids : List String) : Except Err (Option State) :=
  if ids.all (fun i => mapHasKey σ.members i) then
    .ok (distribute
      { σ with
        membersSet := σ.membersSet.filter (fun e => !(ids.contains e.mem.id))
        members := ids.foldl (fun acc i => mapErase acc i) σ.members })
  else .error .memberNotExists

/-- `Reconfigure` (chash.go:174-185): validate capacities, clear the store and
the ring, then add all supplied members. -/
def Reconfigure (σ : State) (ms : List Member) : Except Err (Option State) :=
  if ms.all (fun m => decide (0 < m.capacity)) then
    .ok (addMembersCore { σ with members := [], membersSet := [] } ms)
  else .error .invalidCapacity

/-- `GetNext` (chash.go:199-215): for a known identity, the successor position
on the ring (first hash strictly greater, wrapping to index 0). -/
def GetNext (σ : State) (id : String) : Except Err Member :=
  if mapHasKey σ.members id then
    let h := σ.config.hasher id
    let i := searchGt σ.membersSet h
    let i := if i = σ.membersSet.length then 0 else i
    .ok ((σ.membersSet.getD i default).mem)
  else .error .memberNotExists

/-- `GetPrev` (chash.go:217-234): for a known identity, the predecessor
position on the ring (just before the first hash ≥ query, wrapping to the last
entry). -/
def GetPrev (σ : State) (id : String) : Except Err Member :=
  if mapHasKey σ.members id then
    let h := σ.config.hasher id
    let i := searchGe σ.membersSet h
    let j := if i = 0 then σ.membersSet.length - 1 else i - 1
    .ok ((σ.membersSet.getD j default).mem)
  else .error .memberNotExists

/-- States reachable through the public constructor and the mutating API
(`Distribute` is `cHash.Distribute`, chash.go:254-258, i.e. `distribute` under
the exclusive lock). -/
inductive Reachable : State → Prop where
  | new : ∀ c σ, New c = .ok σ → Reachable σ
  | addM : ∀ σ ms σ', Reachable σ → AddMembers σ ms = .ok (some σ') → Reachable σ'
  | removeM : ∀ σ ids σ', Reachable σ → RemoveMembers σ ids = .ok (some σ') → Reachable σ'
  | reconf : ∀ σ ms σ', Reachable σ → Reconfigure σ ms = .ok (some σ') → Reachable σ'
  | dist : ∀ σ σ', Reachable σ → distribute σ = some σ' → Reachable σ'

/-! ### Basic facts about the embedded primitives -/

theorem decAt_map_memberKey (l : List member) (i : Nat) :
    (decAt l i).map memberKey = l.map memberKey := by
  induction l generalizing i with
  | nil => rfl
  | cons e t ih =>
    cases i with
    | zero => simp [decAt, memberKey]
    | succ j => simp [decAt, ih]

theorem decAt_length (l : List member) (i : Nat) : (decAt l i).length = l.length := by
  induction l generalizing i with
  | nil => rfl
  | cons e t ih =>
    cases i with
    | zero => simp [decAt]
    | succ j => simp [decAt, ih]

theorem decAt_getD_mem (l : List member) (i j : Nat) :
    ((decAt l i).getD j default).mem = (l.getD j default).mem := by
  induction l generalizing i j with
  | nil => rfl
  | cons e t ih =>
    cases i with
    | zero => cases j <;> simp [decAt, List.getD]
    | succ i' =>
      cases j with
      | zero => simp [decAt, List.getD]
      | succ j' => simpa [decAt, List.getD] using ih i' j'

theorem map_memberKey_mem_eq {l₁ l₂ : List member}
    (h : l₁.map memberKey = l₂.map memberKey) :
    l₁.map (fun e => e.mem) = l₂.map (fun e => e.mem) := by
  have := congrArg (List.map (fun k : Nat × Member => k.2)) h
  simpa [List.map_map, Function.comp, memberKey] using this

theorem map_memberKey_hash_eq {l₁ l₂ : List member}
    (h : l₁.map memberKey = l₂.map memberKey) :
    l₁.map (fun e => e.hash) = l₂.map (fun e => e.hash) := by
  have := congrArg (List.map (fun k : Nat × Member => k.1)) h
  simpa [List.map_map, Function.comp, memberKey] using this

theorem map_memberKey_length_eq {l₁ l₂ : List member}
    (h : l₁.map memberKey = l₂.map memberKey) : l₁.length = l₂.length := by
  have := congrArg List.length h
  simpa using this

theorem map_memberKey_ids_eq {l₁ l₂ : List member}
    (h : l₁.map memberKey = l₂.map memberKey) :
    l₁.map (fun e => e.mem.id) = l₂.map (fun e => e.mem.id) := by
  have := congrArg (List.map (fun m : Member => m.id)) (map_memberKey_mem_eq h)
  simpa [List.map_map, Function.comp] using this

/-! ### Store (Go map) lemmas -/

theorem mapHasKey_iff (l : List (String × Member)) (k : String) :
    mapHasKey l k = true ↔ k ∈ l.map (fun p => p.1) := by
  simp [mapHasKey, List.any_eq_true, List.mem_map, beq_iff_eq]

theorem mapInsert_keys (l : List (String × Member)) (k : String) (v : Member) :
    (mapInsert l k v).map (fun p => p.1) =
      if mapHasKey l k then l.map (fun p => p.1) else l.map (fun p => p.1) ++ [k] := by
  unfold mapInsert mapHasKey
  split
  · next hcond =>
    simp only [hcond, if_pos, List.map_map]
    refine List.map_congr_left (fun p _ => ?_)
    by_cases h : p.1 = k
    · simp [Function.comp, h]
    · have : (p.1 == k) = false := by
        simpa [beq_iff_eq] using h
      simp [Function.comp, this]
  · next hcond => simp [mapHasKey, hcond]

theorem mapInsert_keysNodup (l : List (String × Member)) (k : String) (v : Member)
    (h : (l.map (fun p => p.1)).Nodup) : ((mapInsert l k v).map (fun p => p.1)).Nodup := by
  rw [mapInsert_keys]
  split
  · exact h
  · next hcond =>
    rw [List.nodup_append]
    refine ⟨h, List.nodup_singleton k, ?_⟩
    intro a ha hb
    rw [List.mem_singleton] at hb
    subst hb
    exact hcond ((mapHasKey_iff l a).mpr ha)

theorem mapInsert_hasKey (l : List (String × Member)) (k v' : String) (v : Member) :
    mapHasKey (mapInsert l k v) v' = true ↔ (mapHasKey l v' = true ∨ v' = k) := by
  rw [mapHasKey_iff, mapInsert_keys]
  split
  · next hc =>
    rw [← mapHasKey_iff]
    constructor
    · exact Or.inl
    · rintro (h | h)
      · exact h
      · subst h
        exact hc
  · next hc =>
    rw [List.mem_append, List.mem_singleton, ← mapHasKey_iff]

theorem mem_mapInsert (l : List (String × Member)) (k : String) (v : Member)
    (p : String × Member) (hp : p ∈ mapInsert l k v) : p ∈ l ∨ p = (k, v) := by
  unfold mapInsert at hp
  split at hp
  · rcases List.mem_map.mp hp with ⟨q, hq, he⟩
    by_cases h : q.1 = k
    · right
      rw [← he]
      simp [beq_iff_eq, h]
    · left
      have : (q.1 == k) = false := by simpa [beq_iff_eq] using h
      rw [← he]
      simpa [this] using hq
  · rcases List.mem_append.mp hp with h | h
    · exact Or.inl h
    · exact Or.inr (List.mem_singleton.mp h)

theorem insertFold_hasKey (ms : List Member) :
    ∀ (store : List (String × Member)) (k : String),
      mapHasKey (ms.foldl (fun acc m => mapInsert acc m.id m) store) k = true ↔
        (mapHasKey store k = true ∨ k ∈ ms.map (fun m => m.id)) := by
  induction ms with
  | nil => simp
  | cons m rest ih =>
    intro store k
    simp only [List.foldl_cons, List.map_cons, List.mem_cons]
    rw [ih, mapInsert_hasKey]
    tauto

theorem insertFold_keysNodup (ms : List Member) :
    ∀ (store : List (String × Member)),
      ((store.map (fun p => p.1)).Nodup) →
      (((ms.foldl (fun acc m => mapInsert acc m.id m) store).map (fun p => p.1)).Nodup) := by
  induction ms with
  | nil => intro store h; simpa using h
  | cons m rest ih =>
    intro store h
    exact ih _ (mapInsert_keysNodup _ _ _ h)

theorem mem_insertFold (ms : List Member) :
    ∀ (store : List (String × Member)) (p : String × Member),
      p ∈ ms.foldl (fun acc m => mapInsert acc m.id m) store →
      p ∈ store ∨ ∃ m ∈ ms, p = (m.id, m) := by
  induction ms with
  | nil => intro store p hp; exact Or.inl hp
  | cons m rest ih =>
    intro store p hp
    rcases ih _ p hp with h | ⟨m', hm', he⟩
    · rcases mem_mapInsert _ _ _ _ h with h' | h'
      · exact Or.inl h'
      · exact Or.inr ⟨m, List.mem_cons_self m rest, h'⟩
    · exact Or.inr ⟨m', List.mem_cons_of_mem m hm', he⟩

theorem mapErase_hasKey (l : List (String × Member)) (k v' : String) :
    mapHasKey (mapErase l k) v' = true ↔ (mapHasKey l v' = true ∧ v' ≠ k) := by
  unfold mapErase
  rw [mapHasKey_iff, mapHasKey_iff]
  constructor
  · intro h
    rcases List.mem_map.mp h with ⟨p, hp, he⟩
    rcases List.mem_filter.mp hp with ⟨hpl, hpk⟩
    have hne : p.1 ≠ k := by simpa [beq_iff_eq] using hpk
    subst he
    exact ⟨List.mem_map.mpr ⟨p, hpl, rfl⟩, hne⟩
  · rintro ⟨h, hne⟩
    rcases List.mem_map.mp h with ⟨p, hp, he⟩
    subst he
    refine List.mem_map.mpr ⟨p, List.mem_filter.mpr ⟨hp, ?_⟩, rfl⟩
    simpa [beq_iff_eq] using hne

theorem mapErase_sub (l : List (String × Member)) (k : String) (p : String × Member)
    (hp : p ∈ mapErase l k) : p ∈ l := List.mem_of_mem_filter hp

theorem mapErase_keysNodup (l : List (String × Member)) (k : String)
    (h : (l.map (fun p => p.1)).Nodup) : ((mapErase l k).map (fun p => p.1)).Nodup := by
  have hsub : ((mapErase l k).map (fun p => p.1)).Sublist (l.map (fun p => p.1)) :=
    List.Sublist.map _ (List.filter_sublist l)
  exact h.sublist hsub

theorem eraseFold_hasKey (ids : List String) :
    ∀ (store : List (String × Member)) (k : String),
      mapHasKey (ids.foldl (fun acc i => mapErase acc i) store) k = true ↔
        (mapHasKey store k = true ∧ k ∉ ids) := by
  induction ids with
  | nil => simp
  | cons i rest ih =>
    intro store k
    simp only [List.foldl_cons, List.mem_cons]
    rw [ih, mapErase_hasKey]
    tauto

theorem eraseFold_sub (ids : List String) :
    ∀ (store : List (String × Member)) (p : String × Member),
      p ∈ ids.foldl (fun acc i => mapErase acc i) store → p ∈ store := by
  induction ids with
  | nil => intro store p hp; exact hp
  | cons i rest ih =>
    intro store p hp
    exact mapErase_sub _ _ _ (ih _ p hp)

theorem eraseFold_keysNodup (ids : List String) :
    ∀ (store : List (String × Member)),
      (store.map (fun p => p.1)).Nodup →
      (((ids.foldl (fun acc i => mapErase acc i) store).map (fun p => p.1)).Nodup) := by
  induction ids with
  | nil => intro store h; exact h
  | cons i rest ih =>
    intro store h
    exact ih _ (mapErase_keysNodup _ _ h)

/-! ### What a successful fill walk guarantees -/

theorem fillGo_zero (rf : Nat) (m : List member) (idx : Nat) (foundIdx : List Nat)
    (ov : Nat) (acc : List Member) :
    fillGo rf 0 m idx foundIdx ov acc =
      if rf ≤ acc.length then some (m, acc) else none := rfl

theorem fillGo_succ (rf fuel : Nat) (m : List member) (idx : Nat) (foundIdx : List Nat)
    (ov : Nat) (acc : List Member) :
    fillGo rf (fuel + 1) m idx foundIdx ov acc =
      if rf ≤ acc.length then some (m, acc)
      else if wrapIdx m.length idx ∈ foundIdx then
        fillGo rf fuel m (wrapIdx m.length idx + 1) foundIdx (ov + 1) acc
      else if (m.getD (wrapIdx m.length idx) default).pieces > -(ov : Int) then
        fillGo rf fuel (decAt m (wrapIdx m.length idx)) (wrapIdx m.length idx + 1)
          (foundIdx ++ [wrapIdx m.length idx]) ov
          (acc ++ [(m.getD (wrapIdx m.length idx) default).mem])
      else fillGo rf fuel m (wrapIdx m.length idx + 1) foundIdx ov acc := rfl

theorem wrapIdx_lt (n idx : Nat) (hn : n ≠ 0) (hidx : idx ≤ n) : wrapIdx n idx < n := by
  unfold wrapIdx
  split
  · exact Nat.pos_of_ne_zero hn
  · next h => exact Nat.lt_of_le_of_ne hidx h

theorem fillGo_some_spec :
    ∀ (fuel rf : Nat) (m : List member) (idx : Nat) (foundIdx : List Nat)
      (ov : Nat) (acc : List Member) (m' : List member) (out : List Member),
      fillGo rf fuel m idx foundIdx ov acc = some (m', out) →
      m ≠ [] →
      idx ≤ m.length →
      foundIdx.Nodup →
      (∀ i ∈ foundIdx, i < m.length) →
      acc = foundIdx.map (fun i => (m.getD i default).mem) →
      ∃ fIdx : List Nat,
        fIdx.Nodup ∧ (∀ i ∈ fIdx, i < m.length) ∧
        out = fIdx.map (fun i => (m.getD i default).mem) ∧
        out.length = max rf acc.length ∧
        m'.map memberKey = m.map memberKey := by
  intro fuel
  induction fuel with
  | zero =>
    intro rf m idx foundIdx ov acc m' out hrun hne hidx hnd hlt hacc
    rw [fillGo_zero] at hrun
    split at hrun
    · next hstop =>
      injection hrun with h
      injection h with hm hout
      subst hm
      subst hout
      exact ⟨foundIdx, hnd, hlt, hacc, (Nat.max_eq_right hstop).symm, rfl⟩
    · simp at hrun
  | succ fuel ih =>
    intro rf m idx foundIdx ov acc m' out hrun hne hidx hnd hlt hacc
    have hwlt : wrapIdx m.length idx < m.length :=
      wrapIdx_lt _ _ (fun h => hne (List.eq_nil_of_length_eq_zero h)) hidx
    rw [fillGo_succ] at hrun
    split at hrun
    · next hstop =>
      injection hrun with h
      injection h with hm hout
      subst hm
      subst hout
      exact ⟨foundIdx, hnd, hlt, hacc, (Nat.max_eq_right hstop).symm, rfl⟩
    · next hstop =>
      split at hrun
      · -- skip of an already chosen index
        exact ih rf m _ foundIdx (ov + 1) acc m' out hrun hne hwlt hnd hlt hacc
      · next hnfound =>
        split at hrun
        · -- assignment
          have hlen : (decAt m (wrapIdx m.length idx)).length = m.length :=
            decAt_length m _
          have hne' : decAt m (wrapIdx m.length idx) ≠ [] := by
            intro h
            apply hne
            apply List.eq_nil_of_length_eq_zero
            rw [← hlen, h]
            rfl
          have hnd' : (foundIdx ++ [wrapIdx m.length idx]).Nodup := by
            rw [List.nodup_append]
            refine ⟨hnd, List.nodup_singleton _, ?_⟩
            intro a ha hb
            rw [List.mem_singleton] at hb
            subst hb
            exact hnfound ha
          have hlt' : ∀ i ∈ foundIdx ++ [wrapIdx m.length idx],
              i < (decAt m (wrapIdx m.length idx)).length := by
            intro i hi
            rw [hlen]
            rcases List.mem_append.mp hi with h | h
            · exact hlt i h
            · rw [List.mem_singleton] at h
              subst h
              exact hwlt
          have hacc' : acc ++ [(m.getD (wrapIdx m.length idx) default).mem] =
              (foundIdx ++ [wrapIdx m.length idx]).map
                (fun i => ((decAt m (wrapIdx m.length idx)).getD i default).mem) := by
            rw [List.map_append, hacc]
            congr 1
            · refine List.map_congr_left (fun i _ => ?_)
              rw [decAt_getD_mem]
            · simp only [List.map_cons, List.map_nil]
              rw [decAt_getD_mem]
          obtain ⟨fIdx, h1, h2, h3, h4, h5⟩ :=
            ih rf _ _ _ ov _ m' out hrun hne' (by rw [hlen]; exact hwlt) hnd' hlt' hacc'
          refine ⟨fIdx, h1, ?_, ?_, ?_, ?_⟩
          · intro i hi
            have := h2 i hi
            rwa [hlen] at this
          · rw [h3]
            refine List.map_congr_left (fun i _ => ?_)
            rw [decAt_getD_mem]
          · rw [h4]
            have h6 : acc.length < rf := Nat.lt_of_not_le hstop
            have h7 : (acc ++ [(m.getD (wrapIdx m.length idx) default).mem]).length =
                acc.length + 1 := by simp
            rw [h7]
            omega
          · rw [h5, decAt_map_memberKey]
        · -- quota gate failed: skip without assigning
          exact ih rf m _ foundIdx ov acc m' out hrun hne hwlt hnd hlt hacc

theorem fillClosest_some_spec (m : List member) (h rf : Nat) (m' : List member)
    (out : List Member) (hrun : fillClosest m h rf = some (m', out)) (hne : m ≠ []) :
    ∃ fIdx : List Nat,
      fIdx.Nodup ∧ (∀ i ∈ fIdx, i < m.length) ∧
      out = fIdx.map (fun i => (m.getD i default).mem) ∧
      out.length = rf ∧
      m'.map memberKey = m.map memberKey := by
  obtain ⟨fIdx, h1, h2, h3, h4, h5⟩ :=
    fillGo_some_spec _ _ _ _ _ _ _ _ _ hrun hne (List.findIdx_le_length _) List.nodup_nil
      (by intro i hi; cases hi) rfl
  exact ⟨fIdx, h1, h2, h3, by simpa using h4, h5⟩

theorem pairwise_ne_map_getD (m : List member) (fIdx : List Nat)
    (hnd : fIdx.Nodup) (hlt : ∀ i ∈ fIdx, i < m.length)
    (hids : (m.map (fun e => e.mem.id)).Nodup) :
    (fIdx.map (fun i => (m.getD i default).mem)).Pairwise (fun a b => a ≠ b) := by
  rw [List.pairwise_map]
  refine List.Pairwise.imp_of_mem ?_ hnd
  intro a b ha hb hab he
  have hia := hlt a ha
  have hib := hlt b hb
  rw [List.getD_eq_getElem m default hia, List.getD_eq_getElem m default hib] at he
  have hg : (m.map (fun e => e.mem.id)).get ⟨a, by simpa⟩ =
      (m.map (fun e => e.mem.id)).get ⟨b, by simpa⟩ := by
    simp only [List.get_eq_getElem, List.getElem_map]
    rw [he]
  have hfin := (hids.get_inj_iff).mp hg
  exact hab (by simpa using congrArg Fin.val hfin)

theorem computePieces_map_memberKey (c : Config) (l : List member) :
    (computePieces c l).map memberKey = l.map memberKey := by
  unfold computePieces
  rw [List.map_map]
  refine List.map_congr_left (fun e _ => rfl)

theorem computePieces_length (c : Config) (l : List member) :
    (computePieces c l).length = l.length := by
  unfold computePieces
  simp

theorem fillAll_some_spec :
    ∀ (hs : List Nat) (rf : Nat) (m m' : List member) (parts : List (List Member)),
      fillAll rf m hs = some (m', parts) → m ≠ [] →
      m'.map memberKey = m.map memberKey ∧
      parts.length = hs.length ∧
      ∀ part ∈ parts, part.length = rf ∧
        ((m.map (fun e => e.mem.id)).Nodup → part.Pairwise (fun a b => a ≠ b)) := by
  intro hs
  induction hs with
  | nil =>
    intro rf m m' parts hrun hne
    rw [fillAll] at hrun
    injection hrun with h
    injection h with h1 h2
    subst h1
    subst h2
    exact ⟨rfl, rfl, by intro part hp; cases hp⟩
  | cons h hs ih =>
    intro rf m m' parts hrun hne
    rw [fillAll] at hrun
    split at hrun
    · exact absurd hrun (by simp)
    · next m1 part heq1 =>
      split at hrun
      · exact absurd hrun (by simp)
      · next m2 parts' heq2 =>
        injection hrun with hpair
        injection hpair with hm hp
        subst hm
        subst hp
        obtain ⟨fIdx, hnd, hlt, hout, hlenp, hkey1⟩ := fillClosest_some_spec _ _ _ _ _ heq1 hne
        have hne1 : m1 ≠ [] := by
          intro hnil
          apply hne
          apply List.eq_nil_of_length_eq_zero
          have := map_memberKey_length_eq hkey1
          rw [hnil] at this
          simpa using this.symm
        obtain ⟨hkey2, hlen2, hparts2⟩ := ih rf m1 m2 parts' heq2 hne1
        refine ⟨hkey2.trans hkey1, by simpa using hlen2, ?_⟩
        intro p hp
        rcases List.mem_cons.mp hp with hp | hp
        · subst hp
          refine ⟨hlenp, ?_⟩
          intro hids
          rw [hout]
          exact pairwise_ne_map_getD m fIdx hnd hlt hids
        · obtain ⟨hl, hpw⟩ := hparts2 p hp
          refine ⟨hl, ?_⟩
          intro hids
          apply hpw
          rw [map_memberKey_ids_eq hkey1]
          exact hids

theorem distribute_some_spec (σ σ' : State) (hd : distribute σ = some σ') :
    σ'.config = σ.config ∧ σ'.members = σ.members ∧
    σ'.partitionHashes = σ.partitionHashes ∧
    σ'.membersSet.map memberKey = σ.membersSet.map memberKey ∧
    (σ.partitions.length = σ.partitionHashes.length →
      σ'.partitions.length = σ.partitions.length) ∧
    ∀ part ∈ σ'.partitions,
      part.length = (effectiveRF σ.config.replicationFactor σ.membersSet.length).toNat ∧
      ((σ.membersSet.map (fun e => e.mem.id)).Nodup →
        part.Pairwise (fun a b => a ≠ b)) := by
  unfold distribute at hd
  split at hd
  · next hlen0 =>
    injection hd with h
    subst h
    refine ⟨rfl, rfl, rfl, rfl, by intro h; simp, ?_⟩
    intro part hp
    rcases List.mem_map.mp hp with ⟨q, hq, he⟩
    constructor
    · rw [← he, hlen0]
      have : effectiveRF σ.config.replicationFactor 0 ≤ 0 := min_le_right _ _
      simp [Int.toNat_eq_zero.mpr this]
    · intro hids
      rw [← he]
      exact List.Pairwise.nil
  · next hlen0 =>
    split at hd
    · exact absurd hd (by simp)
    · next m1 parts heq =>
      injection hd with h
      subst h
      have hne : computePieces σ.config σ.membersSet ≠ [] := by
        intro hnil
        apply hlen0
        have := computePieces_length σ.config σ.membersSet
        rw [hnil] at this
        simpa using this.symm
      obtain ⟨hkey, hplen, hparts⟩ := fillAll_some_spec _ _ _ _ _ heq hne
      refine ⟨rfl, rfl, rfl, ?_, ?_, ?_⟩
      · exact hkey.trans (computePieces_map_memberKey _ _)
      · intro hl
        simpa [hplen] using hl.symm
      · intro part hp
        obtain ⟨h1, h2⟩ := hparts part hp
        refine ⟨h1, ?_⟩
        intro hids
        apply h2
        rw [map_memberKey_ids_eq (computePieces_map_memberKey σ.config σ.membersSet)]
        exact hids

/-! ### The reachable-state invariant -/

instance : IsTotal member (fun a b => a.hash ≤ b.hash) :=
  ⟨fun a b => Nat.le_total a.hash b.hash⟩

instance : IsTrans member (fun a b => a.hash ≤ b.hash) :=
  ⟨fun _ _ _ hab hbc => le_trans hab hbc⟩

theorem sortMembers_sorted (l : List member) :
    (sortMembers l).Pairwise (fun a b => a.hash ≤ b.hash) :=
  List.sorted_insertionSort _ l

theorem sortMembers_perm (l : List member) : (sortMembers l).Perm l :=
  List.perm_insertionSort _ l

/-- The identities present on the ring. -/
def ringIds (σ : State) : List String := σ.membersSet.map (fun e => e.mem.id)

/-- Structural invariant of every reachable state. -/
structure StateInv (σ : State) : Prop where
  rfPos : 1 ≤ σ.config.replicationFactor
  pcBig : 10 ≤ σ.config.partitionCount
  hashesCanon : σ.partitionHashes =
    (List.range σ.config.partitionCount).map (fun i => σ.config.hasher ("p" ++ toString i))
  partsLen : σ.partitions.length = σ.config.partitionCount
  ringSorted : σ.membersSet.Pairwise (fun a b => a.hash ≤ b.hash)
  entryHash : ∀ e ∈ σ.membersSet, e.hash = σ.config.hasher e.mem.id
  keysNodup : (σ.members.map (fun p => p.1)).Nodup
  keyId : ∀ p ∈ σ.members, p.2.id = p.1
  coherent : ∀ k : String, mapHasKey σ.members k = true ↔ k ∈ ringIds σ
  valCoherent : ∀ p ∈ σ.members, ∃ e ∈ σ.membersSet, e.mem = p.2

theorem mem_memberKey_transfer {l₁ l₂ : List member}
    (h : l₁.map memberKey = l₂.map memberKey) {e : member} (he : e ∈ l₁) :
    ∃ e₂ ∈ l₂, e₂.hash = e.hash ∧ e₂.mem = e.mem := by
  have h1 : memberKey e ∈ l₂.map memberKey := by
    rw [← h]
    exact List.mem_map.mpr ⟨e, he, rfl⟩
  rcases List.mem_map.mp h1 with ⟨e₂, he₂, hk⟩
  refine ⟨e₂, he₂, ?_, ?_⟩
  · exact congrArg Prod.fst hk
  · exact congrArg Prod.snd hk

theorem pairwise_hash_of_map_eq {l₁ l₂ : List member}
    (h : l₁.map memberKey = l₂.map memberKey)
    (hp : l₂.Pairwise (fun a b => a.hash ≤ b.hash)) :
    l₁.Pairwise (fun a b => a.hash ≤ b.hash) := by
  have h2 : (l₂.map (fun e => e.hash)).Pairwise (fun a b => a ≤ b) :=
    (List.pairwise_map).mpr hp
  rw [← map_memberKey_hash_eq h] at h2
  exact (List.pairwise_map).mp h2

theorem inv_distribute {σ σ' : State} (hInv : StateInv σ) (hd : distribute σ = some σ') :
    StateInv σ' := by
  obtain ⟨hc, hm, hph, hkey, hplen, _⟩ := distribute_some_spec σ σ' hd
  refine ⟨?_, ?_, ?_, ?_, ?_, ?_, ?_, ?_, ?_, ?_⟩
  · rw [hc]; exact hInv.rfPos
  · rw [hc]; exact hInv.pcBig
  · rw [hph, hc]; exact hInv.hashesCanon
  · rw [hc]
    have hl : σ.partitions.length = σ.partitionHashes.length := by
      rw [hInv.partsLen, hInv.hashesCanon]
      simp
    rw [hplen hl]
    exact hInv.partsLen
  · exact pairwise_hash_of_map_eq hkey hInv.ringSorted
  · intro e he
    rcases mem_memberKey_transfer hkey he with ⟨e₂, he₂, hh, hmm⟩
    rw [hc, ← hh, ← hmm]
    exact hInv.entryHash e₂ he₂
  · rw [hm]; exact hInv.keysNodup
  · rw [hm]; exact hInv.keyId
  · intro k
    rw [hm]
    have hids : ringIds σ' = ringIds σ := map_memberKey_ids_eq hkey
    rw [hids]
    exact hInv.coherent k
  · intro p hp
    rw [hm] at hp
    rcases hInv.valCoherent p hp with ⟨e, he, hmem⟩
    rcases mem_memberKey_transfer hkey.symm he with ⟨e₂, he₂, _, hmm⟩
    exact ⟨e₂, he₂, hmm.trans hmem⟩

theorem inv_addMid {σ : State} (hInv : StateInv σ) (ms : List Member) :
    StateInv
      { σ with
        membersSet := sortMembers (σ.membersSet ++
          ms.map (fun m => { hash := σ.config.hasher m.id, pieces := 0, mem := m }))
        members := ms.foldl (fun acc m => mapInsert acc m.id m) σ.members } := by
  set newEntries : List member :=
    ms.map (fun m => { hash := σ.config.hasher m.id, pieces := 0, mem := m }) with hnew
  have hperm : (sortMembers (σ.membersSet ++ newEntries)).Perm (σ.membersSet ++ newEntries) :=
    sortMembers_perm _
  refine ⟨hInv.rfPos, hInv.pcBig, hInv.hashesCanon, hInv.partsLen, sortMembers_sorted _,
    ?_, ?_, ?_, ?_, ?_⟩
  · intro e he
    have he2 := hperm.mem_iff.mp he
    rcases List.mem_append.mp he2 with h | h
    · exact hInv.entryHash e h
    · rcases List.mem_map.mp h with ⟨m, _, hm⟩
      rw [← hm]
  · exact insertFold_keysNodup ms σ.members hInv.keysNodup
  · intro p hp
    rcases mem_insertFold ms σ.members p hp with h | ⟨m, _, he⟩
    · exact hInv.keyId p h
    · rw [he]
  · intro k
    rw [insertFold_hasKey]
    unfold ringIds
    simp only
    constructor
    · rintro (h | h)
      · have := (hInv.coherent k).mp h
        unfold ringIds at this
        rcases List.mem_map.mp this with ⟨e, he, hid⟩
        exact List.mem_map.mpr ⟨e, hperm.mem_iff.mpr (List.mem_append.mpr (Or.inl he)), hid⟩
      · rcases List.mem_map.mp h with ⟨m, hm, hid⟩
        refine List.mem_map.mpr ⟨{ hash := σ.config.hasher m.id, pieces := 0, mem := m }, ?_, hid⟩
        refine hperm.mem_iff.mpr (List.mem_append.mpr (Or.inr ?_))
        exact List.mem_map.mpr ⟨m, hm, rfl⟩
    · intro h
      rcases List.mem_map.mp h with ⟨e, he, hid⟩
      rcases List.mem_append.mp (hperm.mem_iff.mp he) with h' | h'
      · refine Or.inl ((hInv.coherent k).mpr ?_)
        exact List.mem_map.mpr ⟨e, h', hid⟩
      · rcases List.mem_map.mp h' with ⟨m, hm, hme⟩
        refine Or.inr (List.mem_map.mpr ⟨m, hm, ?_⟩)
        rw [← hid, ← hme]
  · intro p hp
    rcases mem_insertFold ms σ.members p hp with h | ⟨m, hm, he⟩
    · rcases hInv.valCoherent p h with ⟨e, he, hmem⟩
      refine ⟨e, hperm.mem_iff.mpr (List.mem_append.mpr (Or.inl he)), hmem⟩
    · refine ⟨{ hash := σ.config.hasher m.id, pieces := 0, mem := m }, ?_, ?_⟩
      · refine hperm.mem_iff.mpr (List.mem_append.mpr (Or.inr ?_))
        exact List.mem_map.mpr ⟨m, hm, rfl⟩
      · rw [he]

theorem inv_addMembersCore {σ σ' : State} (hInv : StateInv σ) (ms : List Member)
    (hadd : addMembersCore σ ms = some σ') : StateInv σ' := by
  unfold addMembersCore at hadd
  exact inv_distribute (inv_addMid hInv ms) hadd

theorem inv_removeMid {σ : State} (hInv : StateInv σ) (ids : List String) :
    StateInv
      { σ with
        membersSet := σ.membersSet.filter (fun e => !(ids.contains e.mem.id))
        members := ids.foldl (fun acc i => mapErase acc i) σ.members } := by
  have hsub : (σ.membersSet.filter (fun e => !(ids.contains e.mem.id))).Sublist σ.membersSet :=
    List.filter_sublist _
  refine ⟨hInv.rfPos, hInv.pcBig, hInv.hashesCanon, hInv.partsLen, ?_, ?_, ?_, ?_, ?_, ?_⟩
  · exact hInv.ringSorted.sublist hsub
  · intro e he
    exact hInv.entryHash e (hsub.mem he)
  · exact eraseFold_keysNodup ids σ.members hInv.keysNodup
  · intro p hp
    exact hInv.keyId p (eraseFold_sub ids σ.members p hp)
  · intro k
    rw [eraseFold_hasKey]
    unfold ringIds
    simp only
    rw [hInv.coherent k]
    unfold ringIds
    constructor
    · rintro ⟨h, hnot⟩
      rcases List.mem_map.mp h with ⟨e, he, hid⟩
      refine List.mem_map.mpr ⟨e, List.mem_filter.mpr ⟨he, ?_⟩, hid⟩
      subst hid
      simp only [Bool.not_eq_true']
      rw [← Bool.not_eq_true]
      intro hcon
      apply hnot
      rw [List.contains] at hcon
      exact List.elem_iff.mp hcon
    · intro h
      rcases List.mem_map.mp h with ⟨e, he, hid⟩
      rcases List.mem_filter.mp he with ⟨he', hpred⟩
      constructor
      · exact List.mem_map.mpr ⟨e, he', hid⟩
      · intro hcon
        subst hid
        rw [Bool.not_eq_true'] at hpred
        rw [← Bool.not_eq_true] at hpred
        apply hpred
        rw [List.contains]
        exact List.elem_iff.mpr hcon
  · intro p hp
    have hpold := eraseFold_sub ids σ.members p hp
    rcases hInv.valCoherent p hpold with ⟨e, he, hmem⟩
    have hkey : mapHasKey (ids.foldl (fun acc i => mapErase acc i) σ.members) p.1 = true := by
      rw [mapHasKey_iff]
      exact List.mem_map.mpr ⟨p, hp, rfl⟩
    rcases (eraseFold_hasKey ids σ.members p.1).mp hkey with ⟨_, hnot⟩
    refine ⟨e, List.mem_filter.mpr ⟨he, ?_⟩, hmem⟩
    simp only [Bool.not_eq_true']
    rw [← Bool.not_eq_true]
    intro hcon
    apply hnot
    rw [List.contains] at hcon
    have : e.mem.id ∈ ids := List.elem_iff.mp hcon
    rwa [hmem, hInv.keyId p hpold] at this

theorem inv_clear {σ : State} (hInv : StateInv σ) :
    StateInv { σ with members := [], membersSet := [] } := by
  refine ⟨hInv.rfPos, hInv.pcBig, hInv.hashesCanon, hInv.partsLen, List.Pairwise.nil,
    ?_, List.nodup_nil, ?_, ?_, ?_⟩
  · intro e he
    cases he
  · intro p hp
    cases hp
  · intro k
    simp [mapHasKey, ringIds]
  · intro p hp
    cases hp

theorem inv_initState {c : Config} (h1 : 1 ≤ c.replicationFactor)
    (h2 : 10 ≤ c.partitionCount) : StateInv (initState c) := by
  refine ⟨h1, h2, rfl, by simp [initState], List.Pairwise.nil, ?_, List.nodup_nil, ?_, ?_, ?_⟩
  · intro e he
    cases he
  · intro p hp
    cases hp
  · intro k
    simp [mapHasKey, ringIds, initState]
  · intro p hp
    cases hp

theorem validate_none_bounds {c : Config} (hv : c.Validate = none) :
    1 ≤ c.replicationFactor ∧ 10 ≤ c.partitionCount := by
  unfold Config.Validate at hv
  split at hv
  · exact absurd hv (by simp)
  · split at hv
    · exact absurd hv (by simp)
    · next h1 h2 => exact ⟨by omega, by omega⟩

theorem inv_new {c : Config} {σ : State} (h : New c = .ok σ) : StateInv σ := by
  unfold New at h
  split at h
  · exact absurd h (by simp)
  · next hv =>
    injection h with h
    subst h
    obtain ⟨h1, h2⟩ := validate_none_bounds hv
    exact inv_initState h1 h2

theorem reachable_inv {σ : State} (h : Reachable σ) : StateInv σ := by
  induction h with
  | new c σ hnew => exact inv_new hnew
  | addM σ ms σ' _ hop ih =>
    unfold AddMembers at hop
    split at hop
    · exact absurd hop (by simp)
    · injection hop with hop
      exact inv_addMembersCore ih ms hop
  | removeM σ ids σ' _ hop ih =>
    unfold RemoveMembers at hop
    split at hop
    · injection hop with hop
      exact inv_distribute (inv_removeMid ih ids) hop
    · exact absurd hop (by simp)
  | reconf σ ms σ' _ hop ih =>
    unfold Reconfigure at hop
    split at hop
    · injection hop with hop
      exact inv_addMembersCore (inv_clear ih) ms hop
    · exact absurd hop (by simp)
  | dist σ σ' _ hop ih => exact inv_distribute ih hop

/-! ### Construction contract (C9) -/

theorem normalizeConfig_rf (c : Config) :
    (normalizeConfig c).replicationFactor =
      if c.replicationFactor = 0 then 1 else c.replicationFactor := by
  unfold normalizeConfig
  split <;> rfl

theorem normalizeConfig_pc (c : Config) :
    (normalizeConfig c).partitionCount = c.partitionCount := by
  unfold normalizeConfig
  split <;> rfl

theorem new_error_iff (c : Config) :
    (∃ e, New c = .error e) ↔ (c.partitionCount < 10 ∨ c.replicationFactor < 0) := by
  unfold New
  cases heq : (normalizeConfig c).Validate with
  | some e =>
    simp only [heq]
    constructor
    · intro _
      unfold Config.Validate at heq
      split at heq
      · next h1 =>
        rw [normalizeConfig_rf] at h1
        split at h1
        · omega
        · next h0 => right; omega
      · split at heq
        · next h2 => left; rwa [normalizeConfig_pc] at h2
        · exact absurd heq (by simp)
    · intro _
      exact ⟨e, rfl⟩
  | none =>
    simp only [heq]
    constructor
    · rintro ⟨e, he⟩
      exact absurd he (by simp)
    · intro h
      exfalso
      unfold Config.Validate at heq
      split at heq
      · exact absurd heq (by simp)
      · split at heq
        · exact absurd heq (by simp)
        · next h1 h2 =>
          rw [normalizeConfig_rf] at h1
          rw [normalizeConfig_pc] at h2
          rcases h with h | h
          · omega
          · split at h1 <;> omega

theorem new_ok_shape (c : Config) (σ : State) (h : New c = .ok σ) :
    σ.config.partitionCount = c.partitionCount ∧
    (c.replicationFactor = 0 → σ.config.replicationFactor = 1) ∧
    σ.partitionHashes.length = c.partitionCount ∧
    σ.members = [] ∧ σ.membersSet = [] ∧
    σ.partitions.length = c.partitionCount ∧
    (∀ part ∈ σ.partitions, part = []) := by
  unfold New at h
  split at h
  · exact absurd h (by simp)
  · injection h with h
    subst h
    unfold initState
    refine ⟨normalizeConfig_pc c, ?_, ?_, rfl, rfl, ?_, ?_⟩
    · intro h0
      rw [normalizeConfig_rf, if_pos h0]
    · simp [normalizeConfig_pc]
    · simp [normalizeConfig_pc]
    · intro part hp
      rcases List.mem_map.mp hp with ⟨i, _, he⟩
      exact he.symm

/-- C9: `New` returns a configuration error exactly when `PartitionCount < 10`
or `ReplicationFactor < 0`; a `ReplicationFactor` of 0 is normalized to 1, and
a successful construction has `PartitionCount` precomputed partition hashes,
an empty membership store, an empty ring, and an all-empty partition table of
length `PartitionCount`. -/
theorem C9_new_validation_and_shape (c : Config) :
    ((∃ e, New c = .error e) ↔ (c.partitionCount < 10 ∨ c.replicationFactor < 0)) ∧
    (∀ σ, New c = .ok σ →
      (c.replicationFactor = 0 → σ.config.replicationFactor = 1) ∧
      σ.partitionHashes.length = c.partitionCount ∧
      σ.members = [] ∧ σ.membersSet = [] ∧
      σ.partitions.length = c.partitionCount ∧
      (∀ part ∈ σ.partitions, part = [])) := by
  refine ⟨new_error_iff c, ?_⟩
  intro σ h
  obtain ⟨_, h2, h3, h4, h5, h6, h7⟩ := new_ok_shape c σ h
  exact ⟨h2, h3, h4, h5, h6, h7⟩

/-- A simple concrete hasher for instantiations. -/
def lenHasher : String → Nat := fun s => s.length

def cfgRF0 : Config := { hasher := lenHasher, partitionCount := 10, replicationFactor := 0 }

def cfgRF1 : Config := { hasher := lenHasher, partitionCount := 10, replicationFactor := 1 }

/-- Concrete instantiation of C9: PartitionCount 10, ReplicationFactor 0. -/
theorem C9_witness :
    New cfgRF0 = .ok (initState cfgRF1) ∧
    (initState cfgRF1).config.replicationFactor = 1 ∧
    (initState cfgRF1).members = [] := by
  refine ⟨rfl, ?_, ?_⟩
  · exact ((C9_new_validation_and_shape cfgRF0).2 _ rfl).1 rfl
  · exact ((C9_new_validation_and_shape cfgRF0).2 _ rfl).2.2.1

/-! ### The quota formula (C4) -/

theorem ratTrunc_eq_floor {q : ℚ} (h : 0 ≤ q) : ratTrunc q = ⌊q⌋ := by
  unfold ratTrunc
  rw [Int.tdiv_eq_ediv (Rat.num_nonneg.mpr h) (Int.natCast_nonneg q.den)]
  exact Rat.floor_def.symm

theorem totalCapacity_foldl_mono :
    ∀ (l : List member) (a : ℚ), (∀ e ∈ l, 0 < e.mem.capacity) →
      a ≤ l.foldl (fun a e => a + e.mem.capacity) a := by
  intro l
  induction l with
  | nil => intro a _; exact le_refl a
  | cons e t ih =>
    intro a hpos
    have h1 : a ≤ a + e.mem.capacity := by
      have := hpos e (List.mem_cons_self e t)
      linarith
    have h2 := ih (a + e.mem.capacity) (fun x hx => hpos x (List.mem_cons_of_mem e hx))
    calc a ≤ a + e.mem.capacity := h1
    _ ≤ _ := h2

theorem totalCapacity_pos (l : List member) (hne : l ≠ [])
    (hpos : ∀ e ∈ l, 0 < e.mem.capacity) : 0 < totalCapacity l := by
  cases l with
  | nil => exact absurd rfl hne
  | cons e t =>
    unfold totalCapacity
    rw [List.foldl_cons]
    have h1 : 0 + e.mem.capacity ≤ t.foldl (fun a e => a + e.mem.capacity) (0 + e.mem.capacity) :=
      totalCapacity_foldl_mono t _ (fun x hx => hpos x (List.mem_cons_of_mem e hx))
    have h2 : 0 < 0 + e.mem.capacity := by
      have := hpos e (List.mem_cons_self e t)
      linarith
    linarith

theorem effectiveRF_pos (R : Int) (n : Nat) (hR : 1 ≤ R) (hn : 1 ≤ n) :
    1 ≤ effectiveRF R n := by
  unfold effectiveRF
  rw [le_min_iff]
  exact ⟨hR, by exact_mod_cast hn⟩

/-- C4: on a distribution pass over a non-empty ring, each member's quota is
`⌊PartitionCount · effectiveRF · capacity / totalCapacity⌋ + 1`, hence at
least 1.  (In the code the quotient is computed as
`(PC·rf)/(total/capacity)`, which is the same rational number.) -/
theorem C4_quota_formula (c : Config) (l : List member)
    (hne : l ≠ []) (hR : 1 ≤ c.replicationFactor)
    (hpos : ∀ e ∈ l, 0 < e.mem.capacity) :
    (computePieces c l).map (fun e => e.pieces) =
      l.map (fun e =>
        ⌊((c.partitionCount : ℚ) * ((effectiveRF c.replicationFactor l.length : Int) : ℚ) *
            e.mem.capacity / totalCapacity l : ℚ)⌋ + 1) ∧
    ∀ e ∈ computePieces c l, 1 ≤ e.pieces := by
  have hn : 1 ≤ l.length := by
    cases l with
    | nil => exact absurd rfl hne
    | cons e t => simp
  have htot : 0 < totalCapacity l := totalCapacity_pos l hne hpos
  have hrf : (1 : ℚ) ≤ ((effectiveRF c.replicationFactor l.length : Int) : ℚ) := by
    exact_mod_cast effectiveRF_pos _ _ hR hn
  have key : ∀ e ∈ l,
      ratTrunc (((c.partitionCount : ℚ) *
          ((effectiveRF c.replicationFactor l.length : Int) : ℚ)) /
        (totalCapacity l / e.mem.capacity)) =
      ⌊((c.partitionCount : ℚ) * ((effectiveRF c.replicationFactor l.length : Int) : ℚ) *
          e.mem.capacity / totalCapacity l : ℚ)⌋ := by
    intro e he
    rw [div_div_eq_mul_div]
    apply ratTrunc_eq_floor
    apply div_nonneg
    · apply mul_nonneg
      · apply mul_nonneg
        · exact Nat.cast_nonneg _
        · linarith
      · exact le_of_lt (hpos e he)
    · linarith
  constructor
  · unfold computePieces
    rw [List.map_map]
    refine List.map_congr_left (fun e he => ?_)
    simp only [Function.comp]
    rw [key e he]
  · intro e he
    unfold computePieces at he
    rcases List.mem_map.mp he with ⟨e₀, he₀, hmk⟩
    rw [← hmk]
    simp only
    rw [key e₀ he₀]
    have hfl : 0 ≤ ⌊((c.partitionCount : ℚ) *
        ((effectiveRF c.replicationFactor l.length : Int) : ℚ) *
        e₀.mem.capacity / totalCapacity l : ℚ)⌋ := by
      rw [Int.floor_nonneg]
      apply div_nonneg
      · apply mul_nonneg
        · apply mul_nonneg
          · exact Nat.cast_nonneg _
          · linarith
        · exact le_of_lt (hpos e₀ he₀)
      · linarith
    omega

/-- Concrete instantiation of C4: two members with capacities 1 and 3,
PartitionCount 10, ReplicationFactor 1. -/
theorem C4_witness :
    ([⟨5, 0, ⟨"a", 1⟩⟩, ⟨7, 0, ⟨"b", 3⟩⟩] : List member) ≠ [] ∧
    (computePieces cfgRF1 [⟨5, 0, ⟨"a", 1⟩⟩, ⟨7, 0, ⟨"b", 3⟩⟩]).map
        (fun e => e.pieces) =
      ([⟨5, 0, ⟨"a", 1⟩⟩, ⟨7, 0, ⟨"b", 3⟩⟩] : List member).map (fun e =>
        ⌊((cfgRF1.partitionCount : ℚ) *
            ((effectiveRF cfgRF1.replicationFactor 2 : Int) : ℚ) *
            e.mem.capacity / totalCapacity [⟨5, 0, ⟨"a", 1⟩⟩, ⟨7, 0, ⟨"b", 3⟩⟩] : ℚ)⌋ + 1) := by
  constructor
  · simp
  · exact (C4_quota_formula cfgRF1 [⟨5, 0, ⟨"a", 1⟩⟩, ⟨7, 0, ⟨"b", 3⟩⟩]
      (by simp) (by decide) (by decide)).1

/-! ### The partition-table invariant (C1) -/

theorem store_ring_length {σ : State} (hInv : StateInv σ)
    (hnd : (ringIds σ).Nodup) : σ.membersSet.length = σ.members.length := by
  have hkeys : (σ.members.map (fun p => p.1)).Nodup := hInv.keysNodup
  have hiff : ∀ k, k ∈ σ.members.map (fun p => p.1) ↔ k ∈ ringIds σ := by
    intro k
    rw [← mapHasKey_iff]
    exact hInv.coherent k
  have h1 : (σ.members.map (fun p => p.1)).Subperm (ringIds σ) :=
    hkeys.subperm (fun k hk => (hiff k).mp hk)
  have h2 : (ringIds σ).Subperm (σ.members.map (fun p => p.1)) :=
    hnd.subperm (fun k hk => (hiff k).mpr hk)
  have := le_antisymm h1.length_le h2.length_le
  unfold ringIds at this
  simpa using this.symm

/-- The per-state conclusion of C1: the partition table has `PartitionCount`
rows, every row has exactly `min(ReplicationFactor, liveMemberCount)` entries
(`liveMemberCount` = ring size = store size once identities are distinct), and
when all live identities are distinct every row's entries are pairwise
distinct members. -/
def C1post (σ : State) : Prop :=
  σ.partitions.length = σ.config.partitionCount ∧
  (∀ part ∈ σ.partitions,
    part.length = (effectiveRF σ.config.replicationFactor σ.membersSet.length).toNat) ∧
  ((ringIds σ).Nodup →
    σ.membersSet.length = σ.members.length ∧
    ∀ part ∈ σ.partitions, part.Pairwise (fun a b => a ≠ b))

theorem c1post_of_distribute {σm σ' : State} (hInv : StateInv σm)
    (hd : distribute σm = some σ') : C1post σ' := by
  obtain ⟨hc, hm, hph, hkey, hplen, hparts⟩ := distribute_some_spec σm σ' hd
  have hInv' : StateInv σ' := inv_distribute hInv hd
  have hsetlen : σ'.membersSet.length = σm.membersSet.length :=
    map_memberKey_length_eq hkey
  refine ⟨?_, ?_, ?_⟩
  · have hl : σm.partitions.length = σm.partitionHashes.length := by
      rw [hInv.partsLen, hInv.hashesCanon]
      simp
    rw [hplen hl, hInv.partsLen, hc]
  · intro part hp
    rw [(hparts part hp).1, hc, hsetlen]
  · intro hnd
    refine ⟨store_ring_length hInv' hnd, ?_⟩
    intro part hp
    refine (hparts part hp).2 ?_
    have hids : ringIds σ' = ringIds σm := map_memberKey_ids_eq hkey
    unfold ringIds at hids
    rw [← hids]
    exact hnd

/-- C1: after construction and after every successful AddMembers,
RemoveMembers, Reconfigure or Distribute call on a reachable state, every
partition's stored member list has exactly
`min(ReplicationFactor, liveMemberCount)` entries, and — provided all live
member identities are distinct — those entries are pairwise-distinct members
(with zero live members every list is empty, since the entry count is then 0). -/
theorem C1_partition_table :
    (∀ (c : Config) (σ : State), New c = .ok σ → C1post σ) ∧
    (∀ (σ : State) (ms : List Member) (σ' : State), Reachable σ →
      AddMembers σ ms = .ok (some σ') → C1post σ') ∧
    (∀ (σ : State) (ids : List String) (σ' : State), Reachable σ →
      RemoveMembers σ ids = .ok (some σ') → C1post σ') ∧
    (∀ (σ : State) (ms : List Member) (σ' : State), Reachable σ →
      Reconfigure σ ms = .ok (some σ') → C1post σ') ∧
    (∀ (σ σ' : State), Reachable σ → distribute σ = some σ' → C1post σ') := by
  refine ⟨?_, ?_, ?_, ?_, ?_⟩
  · intro c σ h
    obtain ⟨hpc, _, _, hmem, hset, hpl, hparts⟩ := new_ok_shape c σ h
    refine ⟨by rw [hpl, hpc], ?_, ?_⟩
    · intro part hp
      rw [hparts part hp, hset]
      simp only [List.length_nil]
      have : effectiveRF σ.config.replicationFactor 0 ≤ 0 := min_le_right _ _
      omega
    · intro _
      refine ⟨by rw [hset, hmem]; rfl, ?_⟩
      intro part hp
      rw [hparts part hp]
      exact List.Pairwise.nil
  · intro σ ms σ' hreach hop
    unfold AddMembers at hop
    split at hop
    · exact absurd hop (by simp)
    · injection hop with hop
      unfold addMembersCore at hop
      exact c1post_of_distribute (inv_addMid (reachable_inv hreach) ms) hop
  · intro σ ids σ' hreach hop
    unfold RemoveMembers at hop
    split at hop
    · injection hop with hop
      exact c1post_of_distribute (inv_removeMid (reachable_inv hreach) ids) hop
    · exact absurd hop (by simp)
  · intro σ ms σ' hreach hop
    unfold Reconfigure at hop
    split at hop
    · injection hop with hop
      unfold addMembersCore at hop
      exact c1post_of_distribute (inv_addMid (inv_clear (reachable_inv hreach)) ms) hop
    · exact absurd hop (by simp)
  · intro σ σ' hreach hop
    exact c1post_of_distribute (reachable_inv hreach) hop


/-! ### Equation-building helpers for concrete executions -/

theorem addMembers_eq_core {σ : State} {ms : List Member}
    (hval : addValidate σ.members ms = none) :
    AddMembers σ ms = .ok (addMembersCore σ ms) := by
  unfold AddMembers
  rw [hval]

theorem addMembersCore_eq (σ : State) (ms : List Member) :
    addMembersCore σ ms = distribute
      { σ with
        membersSet := sortMembers (σ.membersSet ++
          ms.map (fun m => { hash := σ.config.hasher m.id, pieces := 0, mem := m }))
        members := ms.foldl (fun acc m => mapInsert acc m.id m) σ.members } := rfl

theorem distribute_eq_of {σ σ' : State} {mp fin : List member}
    {parts : List (List Member)}
    (hne : ¬ σ.membersSet.length = 0)
    (hp : computePieces σ.config σ.membersSet = mp)
    (hf : fillAll ((effectiveRF σ.config.replicationFactor σ.membersSet.length).toNat)
      mp σ.partitionHashes = some (fin, parts))
    (hout : { σ with membersSet := fin, partitions := parts } = σ') :
    distribute σ = some σ' := by
  unfold distribute
  rw [if_neg hne, hp, hf]
  exact congrArg some hout

/-! ### Distribute is idempotent (C10) -/

theorem totalCapacity_eq_of_mem_eq {l₁ l₂ : List member}
    (h : l₁.map (fun e => e.mem) = l₂.map (fun e => e.mem)) :
    totalCapacity l₁ = totalCapacity l₂ := by
  have hc : l₁.map (fun e => e.mem.capacity) = l₂.map (fun e => e.mem.capacity) := by
    have := congrArg (List.map (fun m : Member => m.capacity)) h
    simpa [List.map_map, Function.comp] using this
  unfold totalCapacity
  rw [← List.foldl_map (fun e : member => e.mem.capacity) (fun a c => a + c),
    ← List.foldl_map (fun e : member => e.mem.capacity) (fun a c => a + c), hc]

theorem computePieces_congr {c : Config} {l₁ l₂ : List member}
    (h : l₁.map memberKey = l₂.map memberKey) :
    computePieces c l₁ = computePieces c l₂ := by
  have hmem := map_memberKey_mem_eq h
  have htot : totalCapacity l₁ = totalCapacity l₂ := totalCapacity_eq_of_mem_eq hmem
  have hlen : l₁.length = l₂.length := map_memberKey_length_eq h
  unfold computePieces
  rw [htot, hlen]
  have h1 : ∀ (l : List member),
      l.map (fun e =>
        { e with pieces := ratTrunc (((c.partitionCount : ℚ) *
            ((effectiveRF c.replicationFactor l₂.length : Int) : ℚ)) /
          (totalCapacity l₂ / e.mem.capacity)) + 1 }) =
      (l.map memberKey).map (fun k =>
        { hash := k.1, pieces := ratTrunc (((c.partitionCount : ℚ) *
            ((effectiveRF c.replicationFactor l₂.length : Int) : ℚ)) /
          (totalCapacity l₂ / k.2.capacity)) + 1, mem := k.2 }) := by
    intro l
    rw [List.map_map]
    exact List.map_congr_left (fun e _ => rfl)
  rw [h1 l₁, h1 l₂, h]

/-- C10: distribute is idempotent — a second distribution pass with no
intervening membership or capacity change returns the state unchanged (in
particular the partition table is identical), because quotas and overflow
counters are recomputed from scratch on every pass. -/
theorem C10_distribute_idempotent (σ σ' : State) (h : distribute σ = some σ') :
    distribute σ' = some σ' := by
  unfold distribute at h
  split at h
  · next hlen0 =>
    injection h with h
    subst h
    unfold distribute
    rw [if_pos hlen0]
    refine congrArg some ?_
    show { σ with partitions := (σ.partitions.map (fun _ => [])).map (fun _ => []) } = _
    rw [List.map_map]
    rfl
  · next hlen0 =>
    split at h
    · exact absurd h (by simp)
    · next m1 parts heq =>
      injection h with h
      subst h
      have hne : computePieces σ.config σ.membersSet ≠ [] := by
        intro hnil
        apply hlen0
        have := computePieces_length σ.config σ.membersSet
        rw [hnil] at this
        simpa using this.symm
      obtain ⟨hkey, _, _⟩ := fillAll_some_spec _ _ _ _ _ heq hne
      have hkey' : m1.map memberKey = σ.membersSet.map memberKey :=
        hkey.trans (computePieces_map_memberKey _ _)
      have hlen : m1.length = σ.membersSet.length := map_memberKey_length_eq hkey'
      unfold distribute
      rw [if_neg (by simpa [hlen] using hlen0)]
      simp only
      rw [hlen, computePieces_congr hkey', heq]
  

def s10 : State := initState cfgRF1

def s10e : State := { s10 with partitions := s10.partitions.map (fun _ => []) }

/-- Concrete instantiation of C10 (empty ring: both passes empty the table). -/
theorem C10_witness : distribute s10 = some s10e ∧ distribute s10e = some s10e := by
  have h1 : distribute s10 = some s10e := by with_unfolding_all rfl
  exact ⟨h1, C10_distribute_idempotent s10 s10e h1⟩

/-! ### Reconfigure is history-independent (C2) -/

theorem normalizeConfig_eq_self {c : Config} (h : c.replicationFactor ≠ 0) :
    normalizeConfig c = c := by
  unfold normalizeConfig
  rw [if_neg h]

theorem map_nil_const_eq {α : Type} (l : List α) :
    l.map (fun _ => ([] : List Member)) = List.replicate l.length [] := by
  induction l with
  | nil => rfl
  | cons a t ih => simp [ih, List.replicate_succ]

theorem distribute_partitions_irrel {σ₁ σ₂ : State}
    (hc : σ₁.config = σ₂.config) (hm : σ₁.members = σ₂.members)
    (hs : σ₁.membersSet = σ₂.membersSet) (hh : σ₁.partitionHashes = σ₂.partitionHashes)
    (hl : σ₁.partitions.length = σ₂.partitions.length) :
    distribute σ₁ = distribute σ₂ := by
  cases σ₁ with
  | mk c₁ m₁ s₁ p₁ h₁ =>
    cases σ₂ with
    | mk c₂ m₂ s₂ p₂ h₂ =>
      simp only at hc hm hs hh hl
      subst hc
      subst hm
      subst hs
      subst hh
      unfold distribute
      simp only
      split
      · refine congrArg some ?_
        simp only [State.mk.injEq, true_and, and_true]
        rw [map_nil_const_eq, map_nil_const_eq, hl]
      · rfl

theorem addValidate_nil {S : List Member} (h : ∀ m ∈ S, 0 < m.capacity) :
    addValidate [] S = none := by
  induction S with
  | nil => rfl
  | cons m rest ih =>
    unfold addValidate
    rw [if_neg (by
      have := h m (List.mem_cons_self m rest)
      intro hc
      linarith)]
    rw [if_neg (by simp [mapHasKey])]
    exact ih (fun x hx => h x (List.mem_cons_of_mem m hx))

theorem reconfigure_eq_core {σ : State} {S : List Member}
    (h : ∀ m ∈ S, 0 < m.capacity) :
    Reconfigure σ S = .ok (addMembersCore { σ with members := [], membersSet := [] } S) := by
  unfold Reconfigure
  rw [if_pos]
  rw [List.all_eq_true]
  intro m hm
  exact decide_eq_true (h m hm)

/-- C2: from every reachable state, `Reconfigure(S)` (for S with positive
capacities) returns exactly what constructing a fresh instance with the same
configuration and calling `AddMembers(S)` in one call returns — in particular
an identical partition table.  (`New` on the same configuration succeeds and
yields the fresh instance.) -/
theorem C2_reconfigure_history_independence (σ : State) (S : List Member)
    (hreach : Reachable σ) (hcap : ∀ m ∈ S, 0 < m.capacity) :
    New σ.config = .ok (initState σ.config) ∧
    Reconfigure σ S = AddMembers (initState σ.config) S := by
  have hInv := reachable_inv hreach
  have hrf0 : σ.config.replicationFactor ≠ 0 := by
    have := hInv.rfPos
    omega
  have hnorm : normalizeConfig σ.config = σ.config := normalizeConfig_eq_self hrf0
  constructor
  · unfold New
    rw [hnorm]
    have hv : σ.config.Validate = none := by
      unfold Config.Validate
      rw [if_neg (by have := hInv.rfPos; omega)]
      rw [if_neg (by have := hInv.pcBig; omega)]
  
    rw [hv]
  · rw [reconfigure_eq_core hcap]
    rw [addMembers_eq_core (by
      show addValidate (initState σ.config).members S = none
      exact addValidate_nil hcap)]
    refine congrArg Except.ok ?_
    unfold addMembersCore
    apply distribute_partitions_irrel
    · rfl
    · rfl
    · rfl
    · show σ.partitionHashes = (initState σ.config).partitionHashes
      rw [hInv.hashesCanon]
      rfl
    · show σ.partitions.length = ((initState σ.config).partitions).length
      rw [hInv.partsLen]
      simp [initState]

def wS2 : List Member := [⟨"a", 1⟩, ⟨"bb", 2⟩, ⟨"ccc", 3⟩]

/-- Concrete instantiation of C2. -/
theorem C2_witness :
    Reachable s10 ∧ (∀ m ∈ wS2, 0 < m.capacity) ∧
    Reconfigure s10 wS2 = AddMembers (initState s10.config) wS2 := by
  have hreach : Reachable s10 := .new cfgRF1 s10 rfl
  have hcap : ∀ m ∈ wS2, 0 < m.capacity := by decide
  exact ⟨hreach, hcap, (C2_reconfigure_history_independence s10 wS2 hreach hcap).2⟩

/-! ### Termination of the fill walk when every quota is positive (C3) -/

theorem fillGo_stop {rf fuel : Nat} {m : List member} {idx : Nat} {fnd : List Nat}
    {ov : Nat} {acc : List Member} (h : rf ≤ acc.length) :
    fillGo rf fuel m idx fnd ov acc = some (m, acc) := by
  cases fuel with
  | zero => rw [fillGo_zero, if_pos h]
  | succ fuel => rw [fillGo_succ, if_pos h]

theorem wrapIdx_eq_mod (n idx : Nat) (hidx : idx ≤ n) :
    wrapIdx n idx = idx % n := by
  unfold wrapIdx
  split
  · next h => rw [h, Nat.mod_self]
  · next h => rw [Nat.mod_eq_of_lt (Nat.lt_of_le_of_ne hidx h)]

/-- The ring index visited `t` steps after position `idx` by the fill walk. -/
def probeAt (n : Nat) : Nat → Nat → Nat
  | idx, 0 => wrapIdx n idx
  | idx, t + 1 => probeAt n (wrapIdx n idx + 1) t

theorem probeAt_zero (n idx : Nat) : probeAt n idx 0 = wrapIdx n idx := rfl

theorem probeAt_succ (n idx t : Nat) :
    probeAt n idx (t + 1) = probeAt n (wrapIdx n idx + 1) t := rfl

theorem probeAt_eq (n : Nat) (hn : n ≠ 0) :
    ∀ (t idx : Nat), idx ≤ n → probeAt n idx t = (idx % n + t) % n := by
  intro t
  induction t with
  | zero =>
    intro idx hidx
    rw [probeAt_zero, wrapIdx_eq_mod n idx hidx, Nat.add_zero,
      Nat.mod_eq_of_lt (Nat.mod_lt _ (Nat.pos_of_ne_zero hn))]
  | succ t ih =>
    intro idx hidx
    have hwlt : wrapIdx n idx < n := wrapIdx_lt n idx hn hidx
    rw [probeAt_succ, ih (wrapIdx n idx + 1) hwlt]
    rw [wrapIdx_eq_mod n idx hidx]
    rw [Nat.mod_add_mod]
    congr 1
    omega

theorem probeAt_cover (n idx j : Nat) (hn : n ≠ 0) (hidx : idx ≤ n) (hj : j < n) :
    ∃ t, t < n ∧ probeAt n idx t = j := by
  have hpos : 0 < n := Nat.pos_of_ne_zero hn
  have ha : idx % n < n := Nat.mod_lt _ hpos
  refine ⟨(j + n - idx % n) % n, Nat.mod_lt _ hpos, ?_⟩
  rw [probeAt_eq n hn _ idx hidx]
  rw [Nat.add_mod_mod]
  have h1 : idx % n + (j + n - idx % n) = j + n := by omega
  rw [h1, Nat.add_mod_right]
  exact Nat.mod_eq_of_lt hj

theorem decAt_getD_pieces_ne (l : List member) :
    ∀ (i j : Nat), j ≠ i →
      ((decAt l i).getD j default).pieces = (l.getD j default).pieces := by
  induction l with
  | nil => intro i j _; rfl
  | cons e t ih =>
    intro i j hne
    cases i with
    | zero =>
      cases j with
      | zero => exact absurd rfl hne
      | succ j' => simp [decAt, List.getD]
    | succ i' =>
      cases j with
      | zero => simp [decAt, List.getD]
      | succ j' =>
        have : j' ≠ i' := by omega
        simpa [decAt, List.getD] using ih i' j' this

theorem exists_lt_not_mem {fnd : List Nat} {n : Nat}
    (hlen : fnd.length < n) : ∃ j, j < n ∧ j ∉ fnd := by
  by_contra hcon
  push_neg at hcon
  have hsub : (List.range n) ⊆ fnd := by
    intro j hj
    exact hcon j (List.mem_range.mp hj)
  have := ((List.nodup_range n).subperm hsub).length_le
  rw [List.length_range] at this
  omega

theorem fillGo_complete_aux :
    ∀ (fuel rf : Nat) (m : List member) (idx : Nat) (fnd : List Nat) (ov : Nat)
      (acc : List Member),
      m ≠ [] → idx ≤ m.length → fnd.Nodup → (∀ i ∈ fnd, i < m.length) →
      acc.length = fnd.length → rf ≤ m.length →
      (∀ i, i < m.length → i ∉ fnd → 1 ≤ (m.getD i default).pieces) →
      acc.length < rf →
      (∃ w, (∃ t, t < w ∧ probeAt m.length idx t ∉ fnd) ∧
        (rf - acc.length - 1) * (m.length + 1) + w ≤ fuel) →
      ∃ m' out, fillGo rf fuel m idx fnd ov acc = some (m', out) ∧ out.length = rf := by
  intro fuel
  induction fuel with
  | zero =>
    intro rf m idx fnd ov acc _ _ _ _ _ _ _ _ hw
    obtain ⟨w, ⟨t, ht, _⟩, hb⟩ := hw
    omega
  | succ fuel ih =>
    intro rf m idx fnd ov acc hne hidx hnd hlt hlen hrfn hp hless hw
    obtain ⟨w, ⟨t, ht, hfree⟩, hb⟩ := hw
    have hn0 : m.length ≠ 0 := fun h => hne (List.eq_nil_of_length_eq_zero h)
    have hwlt : wrapIdx m.length idx < m.length := wrapIdx_lt _ _ hn0 hidx
    rw [fillGo_succ, if_neg (by omega)]
    by_cases hj : wrapIdx m.length idx ∈ fnd
    · rw [if_pos hj]
      cases t with
      | zero =>
        exfalso
        apply hfree
        rw [probeAt_zero]
        exact hj
      | succ t' =>
        apply ih rf m (wrapIdx m.length idx + 1) fnd (ov + 1) acc hne (by omega)
          hnd hlt hlen hrfn hp hless
        refine ⟨w - 1, ⟨t', by omega, ?_⟩, by omega⟩
        rw [← probeAt_succ]
        exact hfree
    · rw [if_neg hj]
      have hgate : (m.getD (wrapIdx m.length idx) default).pieces > -(ov : Int) := by
        have h1 := hp _ hwlt hj
        have h2 : (0 : Int) ≤ (ov : Int) := Int.natCast_nonneg ov
        omega
      rw [if_pos hgate]
      by_cases hfull : rf ≤ (acc ++ [(m.getD (wrapIdx m.length idx) default).mem]).length
      · refine ⟨_, _, fillGo_stop hfull, ?_⟩
        simp only [List.length_append, List.length_cons, List.length_nil] at hfull ⊢
        omega
      · have hacc1 : (acc ++ [(m.getD (wrapIdx m.length idx) default).mem]).length =
            acc.length + 1 := by simp
        apply ih rf (decAt m (wrapIdx m.length idx)) (wrapIdx m.length idx + 1)
          (fnd ++ [wrapIdx m.length idx]) ov
          (acc ++ [(m.getD (wrapIdx m.length idx) default).mem])
        · intro hnil
          apply hne
          apply List.eq_nil_of_length_eq_zero
          rw [← decAt_length m (wrapIdx m.length idx), hnil]
          rfl
        · rw [decAt_length]
          omega
        · rw [List.nodup_append]
          refine ⟨hnd, List.nodup_singleton _, ?_⟩
          intro a ha hb'
          rw [List.mem_singleton] at hb'
          subst hb'
          exact hj ha
        · intro i hi
          rw [decAt_length]
          rcases List.mem_append.mp hi with h | h
          · exact hlt i h
          · rw [List.mem_singleton] at h
            subst h
            exact hwlt
        · simp [hlen]
        · rw [decAt_length]
          exact hrfn
        · intro i hilt hinot
          rw [decAt_length] at hilt
          have hine : i ≠ wrapIdx m.length idx := by
            intro he
            exact hinot (he ▸ List.mem_append.mpr (Or.inr (List.mem_singleton.mpr rfl)))
          rw [decAt_getD_pieces_ne m (wrapIdx m.length idx) i hine]
          apply hp i hilt
          intro hcon
          exact hinot (List.mem_append.mpr (Or.inl hcon))
        · rw [hacc1]
          omega
        · have hlenfnd : (fnd ++ [wrapIdx m.length idx]).length < m.length := by
            rw [hacc1] at hfull
            simp only [List.length_append, List.length_cons, List.length_nil]
            omega
          obtain ⟨j₂, hj₂lt, hj₂notin⟩ := exists_lt_not_mem hlenfnd
          obtain ⟨t₂, ht₂, hprobe⟩ :=
            probeAt_cover m.length (wrapIdx m.length idx + 1) j₂ hn0 (by omega) hj₂lt
          have hsplit : (rf - acc.length - 1) * (m.length + 1) =
              (rf - (acc.length + 1) - 1) * (m.length + 1) + (m.length + 1) := by
            have he1 : rf - acc.length - 1 = (rf - (acc.length + 1) - 1) + 1 := by
              rw [hacc1] at hfull
              omega
            rw [he1, Nat.add_mul, Nat.one_mul]
          refine ⟨m.length, ⟨t₂, ht₂, ?_⟩, ?_⟩
          · rw [decAt_length]
            rw [hprobe]
            intro hcon
            rcases List.mem_append.mp hcon with h | h
            · exact hj₂notin (List.mem_append.mpr (Or.inl h))
            · exact hj₂notin (List.mem_append.mpr (Or.inr h))
          · rw [decAt_length, hacc1]
            omega

/-- C3: on a non-empty ring, for every partition hash and every quota
assignment giving each member at least one piece, the fill walk reaches
`effectiveRF = min(ReplicationFactor, liveMemberCount)` assignments within the
allotted (finite) fuel: the walk terminates with a full result list. -/
theorem C3_fill_walk_terminates (m : List member) (h : Nat) (R : Int)
    (hne : m ≠ []) (hR : 1 ≤ R) (hp : ∀ e ∈ m, 1 ≤ e.pieces) :
    ∃ m' out, fillClosest m h ((effectiveRF R m.length).toNat) = some (m', out) ∧
      out.length = (effectiveRF R m.length).toNat := by
  have hn1 : 1 ≤ m.length := by
    cases m with
    | nil => exact absurd rfl hne
    | cons e t => simp
  have hminle : effectiveRF R m.length ≤ (m.length : Int) := min_le_right _ _
  have hrfn : (effectiveRF R m.length).toNat ≤ m.length := by
    rw [Int.toNat_le]
    exact hminle
  have hmin1 : (1 : Int) ≤ effectiveRF R m.length :=
    le_min hR (by exact_mod_cast hn1)
  have hrf1 : 1 ≤ (effectiveRF R m.length).toNat := by omega
  unfold fillClosest
  apply fillGo_complete_aux _ _ m _ [] 0 [] hne (List.findIdx_le_length _)
    List.nodup_nil (by intro i hi; cases hi) rfl hrfn
  · intro i hilt _
    rw [List.getD_eq_getElem m default hilt]
    exact hp _ (List.getElem_mem hilt)
  · show ([] : List Member).length < (effectiveRF R m.length).toNat
    simp only [List.length_nil]
    omega
  · obtain ⟨rf', hrf'⟩ : ∃ rf', (effectiveRF R m.length).toNat = rf' + 1 :=
      ⟨(effectiveRF R m.length).toNat - 1, by omega⟩
    refine ⟨1, ⟨0, by omega, by simp⟩, ?_⟩
    rw [hrf']
    unfold fillFuel
    have hcalc : rf' * (m.length + 1) + 1 ≤
        (rf' + 1 + 1) * (maxNegPieces m + 2) * (m.length + 2) := by
      calc rf' * (m.length + 1) + 1
          ≤ rf' * (m.length + 2) + (m.length + 2) := by
            have := Nat.mul_le_mul_left rf' (show m.length + 1 ≤ m.length + 2 by omega)
            omega
        _ = (rf' + 1) * (m.length + 2) := by ring
        _ ≤ ((rf' + 1 + 1) * (maxNegPieces m + 2)) * (m.length + 2) := by
            refine Nat.mul_le_mul_right _ ?_
            calc rf' + 1 ≤ rf' + 1 + 1 := by omega
              _ ≤ (rf' + 1 + 1) * (maxNegPieces m + 2) :=
                  Nat.le_mul_of_pos_right _ (by omega)
    simpa using hcalc

def c3ring : List member := [⟨3, 2, ⟨"a", 1⟩⟩, ⟨7, 1, ⟨"b", 1⟩⟩]

/-- Concrete instantiation of C3. -/
theorem C3_witness :
    c3ring ≠ [] ∧
    (fillClosest c3ring 4 ((effectiveRF 5 c3ring.length).toNat)).isSome = true := by
  refine ⟨by decide, ?_⟩
  obtain ⟨m', out, heq, -⟩ :=
    C3_fill_walk_terminates c3ring 4 5 (by decide) (by decide) (by decide)
  rw [heq]
  rfl

/-! ### Concrete executions for the corrected claims -/

/-- A hasher that collides on the identities "a" and "b" — legitimate for the
pluggable `Hasher` capability, whose 64-bit outputs may always collide. -/
def collideHasher : String → Nat := fun s => if s == "a" || s == "b" then 5 else s.length

def mA : Member := ⟨"a", 1⟩

def mB : Member := ⟨"b", 1⟩

def mX : Member := ⟨"x", 1⟩

def cfg5 : Config := { hasher := collideHasher, partitionCount := 10, replicationFactor := 1 }

def cfg6 : Config := { hasher := lenHasher, partitionCount := 10, replicationFactor := 1 }

/-- State after inserting [b, a] (capacity 1 each) under `collideHasher`,
before redistribution: the stable sort keeps the equal-hash entries in
insertion order [b, a]. -/
def mid5 : State :=
  { config := cfg5
    members := [("b", mB), ("a", mA)]
    membersSet := [⟨5, 0, mB⟩, ⟨5, 0, mA⟩]
    partitions := List.replicate 10 []
    partitionHashes := List.replicate 10 2 }

def pieces5 : List member := [⟨5, 6, mB⟩, ⟨5, 6, mA⟩]

def fin5 : List member := [⟨5, 0, mB⟩, ⟨5, 2, mA⟩]

def parts5 : List (List Member) :=
  [[mB], [mB], [mB], [mB], [mB], [mB], [mA], [mA], [mA], [mA]]

def st5 : State := { mid5 with membersSet := fin5, partitions := parts5 }

theorem dist5_eq : distribute mid5 = some st5 :=
  @distribute_eq_of mid5 st5 pieces5 fin5 parts5 (by decide)
    (by with_unfolding_all decide)
    (by decide) rfl

theorem add5_eq : AddMembers (initState cfg5) [mB, mA] = .ok (some st5) := by
  rw [addMembers_eq_core (show addValidate (initState cfg5).members [mB, mA] = none by
    with_unfolding_all decide)]
  rw [show addMembersCore (initState cfg5) [mB, mA] = distribute mid5 from by
    with_unfolding_all rfl]
  rw [dist5_eq]

/-- State after `AddMembers` with the batch [x, x] (the same fresh identity
twice): the pre-call validation only checks the pre-call store, so both copies
are appended to the ring while the map keeps a single key. -/
def mid6 : State :=
  { config := cfg6
    members := [("x", mX)]
    membersSet := [⟨1, 0, mX⟩, ⟨1, 0, mX⟩]
    partitions := List.replicate 10 []
    partitionHashes := List.replicate 10 2 }

def pieces6 : List member := [⟨1, 6, mX⟩, ⟨1, 6, mX⟩]

def fin6 : List member := [⟨1, 0, mX⟩, ⟨1, 2, mX⟩]

def parts6 : List (List Member) := List.replicate 10 [mX]

def st6 : State := { mid6 with membersSet := fin6, partitions := parts6 }

set_option maxHeartbeats 1600000 in
theorem dist6_eq : distribute mid6 = some st6 :=
  @distribute_eq_of mid6 st6 pieces6 fin6 parts6 (by decide)
    (by with_unfolding_all decide)
    (by decide) rfl

theorem add6_eq : AddMembers (initState cfg6) [mX, mX] = .ok (some st6) := by
  rw [addMembers_eq_core (show addValidate (initState cfg6).members [mX, mX] = none by
    with_unfolding_all decide)]
  rw [show addMembersCore (initState cfg6) [mX, mX] = distribute mid6 from by
    with_unfolding_all rfl]
  rw [dist6_eq]

/-- State after adding the single member "a" under `lenHasher`. -/
def mid7 : State :=
  { config := cfgRF1
    members := [("a", mA)]
    membersSet := [⟨1, 0, mA⟩]
    partitions := List.replicate 10 []
    partitionHashes := List.replicate 10 2 }

def pieces7 : List member := [⟨1, 11, mA⟩]

def fin7 : List member := [⟨1, 1, mA⟩]

def parts7 : List (List Member) := List.replicate 10 [mA]

def st7 : State := { mid7 with membersSet := fin7, partitions := parts7 }

set_option maxHeartbeats 1600000 in
theorem dist7_eq : distribute mid7 = some st7 :=
  @distribute_eq_of mid7 st7 pieces7 fin7 parts7 (by decide)
    (by with_unfolding_all decide)
    (by decide) rfl

theorem add7_eq : AddMembers (initState cfgRF1) [mA] = .ok (some st7) := by
  rw [addMembers_eq_core (show addValidate (initState cfgRF1).members [mA] = none by
    with_unfolding_all decide)]
  rw [show addMembersCore (initState cfgRF1) [mA] = distribute mid7 from by
    with_unfolding_all rfl]
  rw [dist7_eq]

/-- Lexicographic comparison of identity strings by character code
(the "ascending member identity string comparison" of the claim). -/
def charListLe : List Char → List Char → Bool
  | [], _ => true
  | _ :: _, [] => false
  | a :: as, b :: bs =>
    if a.toNat < b.toNat then true
    else if b.toNat < a.toNat then false
    else charListLe as bs

def idLe (a b : String) : Bool := charListLe a.data b.data

/-- C5 counterexample: after a successful AddMembers of [b, a] under a hasher
on which "a" and "b" collide, the ring holds the equal-hash entries in
insertion order [b, a] — ids in descending order — so the ring is NOT sorted
with ties broken by ascending member identity.  (`members.Less` compares
hashes only; Go's sort performs no identity tie-break.) -/
theorem C5_counterexample :
    AddMembers (initState cfg5) [mB, mA] = .ok (some st5) ∧
    st5.membersSet.map (fun e => (e.hash, e.mem.id)) = [(5, "b"), (5, "a")] ∧
    ¬ st5.membersSet.Pairwise
      (fun x y => x.hash < y.hash ∨ (x.hash = y.hash ∧ idLe x.mem.id y.mem.id = true)) :=
  ⟨add5_eq, by decide, by decide⟩

/-- C5 amended: after every successful AddMembers, RemoveMembers or
Reconfigure call on a reachable state, the ring is sorted nondecreasing by
hash.  No identity tie-break is performed: entries with equal hashes stay in
insertion order. -/
theorem C5_ring_sorted_amended :
    (∀ (σ : State) (ms : List Member) (σ' : State), Reachable σ →
      AddMembers σ ms = .ok (some σ') →
      σ'.membersSet.Pairwise (fun a b => a.hash ≤ b.hash)) ∧
    (∀ (σ : State) (ids : List String) (σ' : State), Reachable σ →
      RemoveMembers σ ids = .ok (some σ') →
      σ'.membersSet.Pairwise (fun a b => a.hash ≤ b.hash)) ∧
    (∀ (σ : State) (ms : List Member) (σ' : State), Reachable σ →
      Reconfigure σ ms = .ok (some σ') →
      σ'.membersSet.Pairwise (fun a b => a.hash ≤ b.hash)) := by
  refine ⟨?_, ?_, ?_⟩
  · intro σ ms σ' hreach hop
    exact (reachable_inv (Reachable.addM σ ms σ' hreach hop)).ringSorted
  · intro σ ids σ' hreach hop
    exact (reachable_inv (Reachable.removeM σ ids σ' hreach hop)).ringSorted
  · intro σ ms σ' hreach hop
    exact (reachable_inv (Reachable.reconf σ ms σ' hreach hop)).ringSorted

/-- Concrete instantiation of the amended C5. -/
theorem C5_witness :
    st5.membersSet.Pairwise (fun a b => a.hash ≤ b.hash) :=
  C5_ring_sorted_amended.1 (initState cfg5) [mB, mA] st5
    (Reachable.new cfg5 (initState cfg5) rfl) add5_eq

/-- C6 counterexample: a single successful AddMembers call whose batch holds
the same fresh identity twice leaves the ring with a duplicate
(hash, identity) pair, and a ring size (2) different from the live member
count (1). -/
theorem C6_counterexample :
    AddMembers (initState cfg6) [mX, mX] = .ok (some st6) ∧
    st6.membersSet.map (fun e => (e.hash, e.mem.id)) = [(1, "x"), (1, "x")] ∧
    ¬ (st6.membersSet.map (fun e => (e.hash, e.mem.id))).Nodup ∧
    st6.membersSet.length = 2 ∧ st6.members.length = 1 :=
  ⟨add6_eq, by decide, by decide, by decide, by decide⟩

theorem addValidate_none_spec {store : List (String × Member)} :
    ∀ {ms : List Member}, addValidate store ms = none →
      ∀ m ∈ ms, 0 < m.capacity ∧ mapHasKey store m.id = false := by
  intro ms
  induction ms with
  | nil => intro _ m hm; cases hm
  | cons m₀ rest ih =>
    intro h m hm
    unfold addValidate at h
    split at h
    · exact absurd h (by simp)
    · next hcap =>
      split at h
      · exact absurd h (by simp)
      · next hkey =>
        rcases List.mem_cons.mp hm with he | he
        · subst he
          exact ⟨by linarith [lt_of_not_le hcap], by
            rw [Bool.not_eq_true] at hkey
            exact hkey⟩
        · exact ih h m he

/-- C6 amended: a single successful AddMembers call whose batch has
pairwise-distinct identities, starting from a reachable state whose ring has
pairwise-distinct identities, leaves no duplicate (hash, identity) pair in
the ring, and the ring size equals the live member count. -/
theorem C6_no_dup_from_single_add_amended (σ : State) (ms : List Member)
    (σ' : State) (hreach : Reachable σ) (hnd : (ringIds σ).Nodup)
    (hbatch : (ms.map (fun m => m.id)).Nodup)
    (hop : AddMembers σ ms = .ok (some σ')) :
    (σ'.membersSet.map (fun e => (e.hash, e.mem.id))).Nodup ∧
    σ'.membersSet.length = σ'.members.length := by
  have hInv := reachable_inv hreach
  have hInv' := reachable_inv (Reachable.addM σ ms σ' hreach hop)
  unfold AddMembers at hop
  split at hop
  · exact absurd hop (by simp)
  · next hval =>
    injection hop with hop
    unfold addMembersCore at hop
    obtain ⟨_, _, _, hkey, _, _⟩ := distribute_some_spec _ _ hop
    have hids' : σ'.membersSet.map (fun e => e.mem.id) =
        (sortMembers (σ.membersSet ++ ms.map (fun m =>
          { hash := σ.config.hasher m.id, pieces := 0, mem := m }))).map
          (fun e => e.mem.id) := map_memberKey_ids_eq hkey
    have hperm := (sortMembers_perm (σ.membersSet ++ ms.map (fun m =>
      { hash := σ.config.hasher m.id, pieces := 0, mem := m }))).map
      (fun e => e.mem.id)
    have hndcat : ((σ.membersSet ++ ms.map (fun m : Member =>
        ({ hash := σ.config.hasher m.id, pieces := 0, mem := m } : member))).map
        (fun e => e.mem.id)).Nodup := by
      rw [List.map_append]
      rw [List.nodup_append]
      have hbatchids : ((ms.map (fun m : Member =>
          ({ hash := σ.config.hasher m.id, pieces := 0, mem := m } : member))).map
          (fun e => e.mem.id)) = ms.map (fun m => m.id) := by
        rw [List.map_map]
        exact List.map_congr_left (fun m _ => rfl)
      refine ⟨hnd, ?_, ?_⟩
      · rw [hbatchids]
        exact hbatch
      · intro a ha hb
        rw [hbatchids] at hb
        rcases List.mem_map.mp hb with ⟨m, hm, hid⟩
        have := (addValidate_none_spec hval m hm).2
        have hhk : mapHasKey σ.members a = true := (hInv.coherent a).mpr ha
        rw [← hid] at hhk
        rw [this] at hhk
        cases hhk
    have hnodup' : (σ'.membersSet.map (fun e => e.mem.id)).Nodup := by
      rw [hids']
      exact hperm.nodup_iff.mpr hndcat
    constructor
    · have : (σ'.membersSet.map (fun e => (e.hash, e.mem.id))).map
          (fun p => p.2) = σ'.membersSet.map (fun e => e.mem.id) := by
        rw [List.map_map]
        exact List.map_congr_left (fun e _ => rfl)
      refine List.Nodup.of_map (fun p => p.2) ?_
      rw [this]
      exact hnodup'
    · exact store_ring_length hInv' hnodup'

/-- Concrete instantiation of the amended C6. -/
theorem C6_witness :
    (st7.membersSet.map (fun e => (e.hash, e.mem.id))).Nodup ∧
    st7.membersSet.length = st7.members.length :=
  C6_no_dup_from_single_add_amended (initState cfgRF1) [mA] st7
    (Reachable.new cfgRF1 (initState cfgRF1) rfl) (by decide) (by decide) add7_eq

def mBad : Member := ⟨"bad", 0⟩

/-- C7 counterexample: on a state that already contains "a", the batch
[a (valid capacity, already present), bad (capacity 0)] contains a member
with capacity ≤ 0, yet AddMembers returns the member-exists error — the
validation loop checks capacity and existence member-by-member in argument
order, so invalid capacity does not take priority over duplicate identity. -/
theorem C7_counterexample :
    AddMembers (initState cfgRF1) [mA] = .ok (some st7) ∧
    mapHasKey st7.members mA.id = true ∧
    mBad.capacity ≤ 0 ∧
    AddMembers st7 [mA, mBad] = .error .memberExists := by
  refine ⟨add7_eq, by decide, by decide, ?_⟩
  with_unfolding_all rfl

theorem addValidate_some_spec {store : List (String × Member)} :
    ∀ {ms : List Member} {e : Err}, addValidate store ms = some e →
      ∃ m ∈ ms, m.capacity ≤ 0 ∨ mapHasKey store m.id = true := by
  intro ms
  induction ms with
  | nil => intro e h; exact absurd h (by simp [addValidate])
  | cons m₀ rest ih =>
    intro e h
    unfold addValidate at h
    split at h
    · next hc => exact ⟨m₀, List.mem_cons_self _ _, Or.inl hc⟩
    · split at h
      · next hk => exact ⟨m₀, List.mem_cons_self _ _, Or.inr hk⟩
      · rcases ih h with ⟨m, hm, hoff⟩
        exact ⟨m, List.mem_cons_of_mem _ hm, hoff⟩

theorem addValidate_cons (store : List (String × Member)) (m : Member)
    (rest : List Member) :
    addValidate store (m :: rest) =
      if m.capacity ≤ 0 then some .invalidCapacity
      else if mapHasKey store m.id then some .memberExists
      else addValidate store rest := rfl

theorem addValidate_skip_front :
    ∀ (pre : List Member) (store : List (String × Member)) (rest : List Member),
      (∀ p ∈ pre, 0 < p.capacity ∧ mapHasKey store p.id = false) →
      addValidate store (pre ++ rest) = addValidate store rest := by
  intro pre
  induction pre with
  | nil => intro store rest _; rfl
  | cons p pre' ih =>
    intro store rest hpre
    have hp := hpre p (List.mem_cons_self _ _)
    show addValidate store (p :: (pre' ++ rest)) = _
    rw [addValidate_cons, if_neg (by linarith [hp.1]), if_neg (by rw [hp.2]; simp)]
    exact ih store rest (fun q hq => hpre q (List.mem_cons_of_mem _ hq))

/-- C7 amended: AddMembers is all-or-nothing with member-by-member
validation.  (a) The call fails exactly when some supplied member has
capacity ≤ 0 or an identity already in the store; on failure no state is
produced, hence no partial effect.  (b) The error is decided by the first
offending member in argument order: invalid-capacity if that member's
capacity is ≤ 0, member-exists otherwise.  (c) On success all supplied
members are on the resulting ring, the ring grows by the batch size, and a
full redistribution has been performed (every partition list is rebuilt at
the new effective replication factor). -/
theorem C7_addmembers_validation :
    (∀ (σ : State) (ms : List Member),
      (∃ e, AddMembers σ ms = .error e) ↔
        ∃ m ∈ ms, m.capacity ≤ 0 ∨ mapHasKey σ.members m.id = true) ∧
    (∀ (σ : State) (pre : List Member) (m : Member) (post : List Member),
      (∀ p ∈ pre, 0 < p.capacity ∧ mapHasKey σ.members p.id = false) →
      (m.capacity ≤ 0 ∨ mapHasKey σ.members m.id = true) →
      AddMembers σ (pre ++ m :: post) =
        .error (if m.capacity ≤ 0 then .invalidCapacity else .memberExists)) ∧
    (∀ (σ : State) (ms : List Member) (σ' : State),
      AddMembers σ ms = .ok (some σ') →
      (∀ m ∈ ms, m.id ∈ ringIds σ') ∧
      σ'.membersSet.length = σ.membersSet.length + ms.length ∧
      (∀ part ∈ σ'.partitions,
        part.length =
          (effectiveRF σ'.config.replicationFactor σ'.membersSet.length).toNat)) := by
  refine ⟨?_, ?_, ?_⟩
  · intro σ ms
    unfold AddMembers
    cases hv : addValidate σ.members ms with
    | some e =>
      simp only [hv]
      constructor
      · intro _
        exact addValidate_some_spec hv
      · intro _
        exact ⟨e, rfl⟩
    | none =>
      simp only [hv]
      constructor
      · rintro ⟨e, he⟩
        exact absurd he (by simp)
      · rintro ⟨m, hm, hoff⟩
        have := addValidate_none_spec hv m hm
        rcases hoff with h | h
        · linarith [this.1]
        · rw [this.2] at h
          cases h
  · intro σ pre m post hpre hoff
    unfold AddMembers
    rw [addValidate_skip_front pre σ.members (m :: post) hpre, addValidate_cons]
    by_cases hc : m.capacity ≤ 0
    · rw [if_pos hc, if_pos hc]
    · rw [if_neg hc, if_neg hc]
      have hk : mapHasKey σ.members m.id = true := by
        rcases hoff with h | h
        · exact absurd h hc
        · exact h
      rw [if_pos hk]
  · intro σ ms σ' hop
    unfold AddMembers at hop
    split at hop
    · exact absurd hop (by simp)
    · injection hop with hop
      unfold addMembersCore at hop
      obtain ⟨hc, _, _, hkey, _, hparts⟩ := distribute_some_spec _ _ hop
      have hperm := sortMembers_perm (σ.membersSet ++ ms.map (fun m : Member =>
        ({ hash := σ.config.hasher m.id, pieces := 0, mem := m } : member)))
      have hlen : σ'.membersSet.length = σ.membersSet.length + ms.length := by
        have h1 := map_memberKey_length_eq hkey
        simp only at h1
        rw [h1, hperm.length_eq]
        simp
      refine ⟨?_, hlen, ?_⟩
      · intro m hm
        unfold ringIds
        have hids := map_memberKey_ids_eq hkey
        simp only at hids
        rw [hids]
        refine List.mem_map.mpr ⟨{ hash := σ.config.hasher m.id, pieces := 0, mem := m }, ?_, rfl⟩
        refine hperm.mem_iff.mpr (List.mem_append.mpr (Or.inr ?_))
        exact List.mem_map.mpr ⟨m, hm, rfl⟩
      · intro part hp
        have h2 := (hparts part hp).1
        rw [h2]
        simp only at hc
        rw [hc]
        congr 1
        have h1 := map_memberKey_length_eq hkey
        simp only at h1
        rw [h1]
  
/-- Concrete instantiation of the amended C7: a batch whose first offending
member has capacity 0 produces the invalid-capacity error. -/
theorem C7_witness : AddMembers st7 [mBad] = .error .invalidCapacity := by
  have h := C7_addmembers_validation.2.1 st7 [] mBad []
    (by intro p hp; cases hp) (Or.inl (by decide))
  rw [if_pos (by decide)] at h
  exact h

def cfgRF3 : Config := { hasher := lenHasher, partitionCount := 10, replicationFactor := 3 }

def mBB : Member := ⟨"bb", 1⟩

def mCCC : Member := ⟨"ccc", 1⟩

def mid1 : State :=
  { config := cfgRF3
    members := [("a", mA), ("bb", mBB), ("ccc", mCCC)]
    membersSet := [⟨1, 0, mA⟩, ⟨2, 0, mBB⟩, ⟨3, 0, mCCC⟩]
    partitions := List.replicate 10 []
    partitionHashes := List.replicate 10 2 }

def pieces1 : List member := [⟨1, 11, mA⟩, ⟨2, 11, mBB⟩, ⟨3, 11, mCCC⟩]

def fin1 : List member := [⟨1, 1, mA⟩, ⟨2, 1, mBB⟩, ⟨3, 1, mCCC⟩]

def parts1 : List (List Member) := List.replicate 10 [mBB, mCCC, mA]

def st1 : State := { mid1 with membersSet := fin1, partitions := parts1 }

theorem fillAll_cons {rf : Nat} {m m1 m2 : List member} {h : Nat} {hs : List Nat}
    {part : List Member} {parts : List (List Member)}
    (h1 : fillClosest m h rf = some (m1, part))
    (h2 : fillAll rf m1 hs = some (m2, parts)) :
    fillAll rf m (h :: hs) = some (m2, part :: parts) := by
  rw [show fillAll rf m (h :: hs) = (match fillClosest m h rf with
    | none => none
    | some (mx, px) => (match fillAll rf mx hs with
      | none => none
      | some (my, py) => some (my, px :: py))) from rfl]
  rw [h1]
  show (match fillAll rf m1 hs with
    | none => none
    | some (my, py) => some (my, part :: py)) = some (m2, part :: parts)
  rw [h2]

def ring1x0 : List member := [⟨1, 11, mA⟩, ⟨2, 11, mBB⟩, ⟨3, 11, mCCC⟩]

def ring1x1 : List member := [⟨1, 10, mA⟩, ⟨2, 10, mBB⟩, ⟨3, 10, mCCC⟩]

def ring1x2 : List member := [⟨1, 9, mA⟩, ⟨2, 9, mBB⟩, ⟨3, 9, mCCC⟩]

def ring1x3 : List member := [⟨1, 8, mA⟩, ⟨2, 8, mBB⟩, ⟨3, 8, mCCC⟩]

def ring1x4 : List member := [⟨1, 7, mA⟩, ⟨2, 7, mBB⟩, ⟨3, 7, mCCC⟩]

def ring1x5 : List member := [⟨1, 6, mA⟩, ⟨2, 6, mBB⟩, ⟨3, 6, mCCC⟩]

def ring1x6 : List member := [⟨1, 5, mA⟩, ⟨2, 5, mBB⟩, ⟨3, 5, mCCC⟩]

def ring1x7 : List member := [⟨1, 4, mA⟩, ⟨2, 4, mBB⟩, ⟨3, 4, mCCC⟩]

def ring1x8 : List member := [⟨1, 3, mA⟩, ⟨2, 3, mBB⟩, ⟨3, 3, mCCC⟩]

def ring1x9 : List member := [⟨1, 2, mA⟩, ⟨2, 2, mBB⟩, ⟨3, 2, mCCC⟩]

def ring1x10 : List member := [⟨1, 1, mA⟩, ⟨2, 1, mBB⟩, ⟨3, 1, mCCC⟩]

theorem fill1x0 : fillClosest ring1x0 2 3 = some (ring1x1, [mBB, mCCC, mA]) := by
  decide

theorem fill1x1 : fillClosest ring1x1 2 3 = some (ring1x2, [mBB, mCCC, mA]) := by
  decide

theorem fill1x2 : fillClosest ring1x2 2 3 = some (ring1x3, [mBB, mCCC, mA]) := by
  decide

theorem fill1x3 : fillClosest ring1x3 2 3 = some (ring1x4, [mBB, mCCC, mA]) := by
  decide

theorem fill1x4 : fillClosest ring1x4 2 3 = some (ring1x5, [mBB, mCCC, mA]) := by
  decide

theorem fill1x5 : fillClosest ring1x5 2 3 = some (ring1x6, [mBB, mCCC, mA]) := by
  decide

theorem fill1x6 : fillClosest ring1x6 2 3 = some (ring1x7, [mBB, mCCC, mA]) := by
  decide

theorem fill1x7 : fillClosest ring1x7 2 3 = some (ring1x8, [mBB, mCCC, mA]) := by
  decide

theorem fill1x8 : fillClosest ring1x8 2 3 = some (ring1x9, [mBB, mCCC, mA]) := by
  decide

theorem fill1x9 : fillClosest ring1x9 2 3 = some (ring1x10, [mBB, mCCC, mA]) := by
  decide

theorem fill1_all : fillAll 3 ring1x0 (List.replicate 10 2) = some (ring1x10, parts1) := by
  show fillAll 3 ring1x0 (2 :: List.replicate 9 2) = _
  refine fillAll_cons fill1x0 ?_
  show fillAll 3 ring1x1 (2 :: List.replicate 8 2) = _
  refine fillAll_cons fill1x1 ?_
  show fillAll 3 ring1x2 (2 :: List.replicate 7 2) = _
  refine fillAll_cons fill1x2 ?_
  show fillAll 3 ring1x3 (2 :: List.replicate 6 2) = _
  refine fillAll_cons fill1x3 ?_
  show fillAll 3 ring1x4 (2 :: List.replicate 5 2) = _
  refine fillAll_cons fill1x4 ?_
  show fillAll 3 ring1x5 (2 :: List.replicate 4 2) = _
  refine fillAll_cons fill1x5 ?_
  show fillAll 3 ring1x6 (2 :: List.replicate 3 2) = _
  refine fillAll_cons fill1x6 ?_
  show fillAll 3 ring1x7 (2 :: List.replicate 2 2) = _
  refine fillAll_cons fill1x7 ?_
  show fillAll 3 ring1x8 (2 :: List.replicate 1 2) = _
  refine fillAll_cons fill1x8 ?_
  show fillAll 3 ring1x9 (2 :: List.replicate 0 2) = _
  refine fillAll_cons fill1x9 ?_
  rfl

theorem dist1_eq : distribute mid1 = some st1 :=
  @distribute_eq_of mid1 st1 ring1x0 ring1x10 parts1 (by decide)
    (by with_unfolding_all decide)
    (by rw [show mid1.partitionHashes = List.replicate 10 2 from rfl,
          show ((effectiveRF mid1.config.replicationFactor mid1.membersSet.length).toNat) = 3 from by decide]
        exact fill1_all) rfl


theorem add1_eq : AddMembers (initState cfgRF3) [mA, mBB, mCCC] = .ok (some st1) := by
  rw [addMembers_eq_core (show addValidate (initState cfgRF3).members [mA, mBB, mCCC] = none
    by with_unfolding_all decide)]
  rw [show addMembersCore (initState cfgRF3) [mA, mBB, mCCC] = distribute mid1 from by
    with_unfolding_all rfl]
  rw [dist1_eq]

/-- Concrete instantiation of C1: three distinct members at replication
factor 3; every one of the 10 partitions gets 3 pairwise-distinct members. -/
theorem C1_witness :
    Reachable (initState cfgRF3) ∧
    AddMembers (initState cfgRF3) [mA, mBB, mCCC] = .ok (some st1) ∧
    (ringIds st1).Nodup ∧
    st1.partitions.length = st1.config.partitionCount ∧
    st1.membersSet.length = st1.members.length := by
  have hreach : Reachable (initState cfgRF3) := .new cfgRF3 _ rfl
  have h := C1_partition_table.2.1 (initState cfgRF3) [mA, mBB, mCCC] st1 hreach add1_eq
  have hnd : (ringIds st1).Nodup := by decide
  exact ⟨hreach, add1_eq, hnd, h.1, (h.2.2 hnd).1⟩

/- ### C8: ring navigation (GetNext / GetPrev, chash.go:199-234) -/

theorem ring_strict_sorted {σ : State} (hInv : StateInv σ)
    (hnd : (σ.membersSet.map (fun e => e.hash)).Nodup) :
    σ.membersSet.Pairwise (fun a b => a.hash < b.hash) := by
  have hne : σ.membersSet.Pairwise (fun a b => a.hash ≠ b.hash) := List.pairwise_map.mp hnd
  exact (hInv.ringSorted.and hne).imp (fun h => lt_of_le_of_ne h.1 h.2)

theorem ring_ids_nodup {σ : State} (hInv : StateInv σ)
    (hnd : (σ.membersSet.map (fun e => e.hash)).Nodup) : (ringIds σ).Nodup := by
  have hne : σ.membersSet.Pairwise (fun a b => a.hash ≠ b.hash) := List.pairwise_map.mp hnd
  have hids : σ.membersSet.Pairwise (fun a b => a.mem.id ≠ b.mem.id) := by
    refine List.Pairwise.imp_of_mem ?_ hne
    intro a b ha hb hab heq
    exact hab (by rw [hInv.entryHash a ha, hInv.entryHash b hb, heq])
  exact List.pairwise_map.mpr hids

theorem ring_getD_mem {σ : State} {i : Nat} (hi : i < σ.membersSet.length) :
    σ.membersSet.getD i default ∈ σ.membersSet := by
  rw [List.getD_eq_getElem _ _ hi]
  exact List.getElem_mem _

theorem ring_live {σ : State} (hInv : StateInv σ) {i : Nat} (hi : i < σ.membersSet.length) :
    mapHasKey σ.members ((σ.membersSet.getD i default).mem.id) = true :=
  (hInv.coherent _).mpr (List.mem_map.mpr ⟨_, ring_getD_mem hi, rfl⟩)

theorem searchGe_at {σ : State} (hInv : StateInv σ)
    (hnd : (σ.membersSet.map (fun e => e.hash)).Nodup)
    {i : Nat} (hi : i < σ.membersSet.length) :
    searchGe σ.membersSet ((σ.membersSet.getD i default).hash) = i := by
  have hstrict := ring_strict_sorted hInv hnd
  unfold searchGe
  rw [List.getD_eq_getElem _ _ hi]
  refine (List.findIdx_eq hi).mpr ⟨by simp, ?_⟩
  intro j hj
  have hlt := List.pairwise_iff_getElem.mp hstrict j i (by omega) hi hj
  simpa using Nat.not_le.mpr hlt

theorem searchGt_at {σ : State} (hInv : StateInv σ)
    (hnd : (σ.membersSet.map (fun e => e.hash)).Nodup)
    {i : Nat} (hi : i < σ.membersSet.length) :
    searchGt σ.membersSet ((σ.membersSet.getD i default).hash) =
      if i + 1 < σ.membersSet.length then i + 1 else σ.membersSet.length := by
  have hstrict := ring_strict_sorted hInv hnd
  unfold searchGt
  rw [List.getD_eq_getElem _ _ hi]
  by_cases hc : i + 1 < σ.membersSet.length
  · rw [if_pos hc]
    refine (List.findIdx_eq hc).mpr ⟨?_, ?_⟩
    · have hlt := List.pairwise_iff_getElem.mp hstrict i (i + 1) hi hc (Nat.lt_succ_self i)
      simpa using hlt
    · intro j hj
      have hle : (σ.membersSet.get ⟨j, by omega⟩).hash ≤ (σ.membersSet.get ⟨i, hi⟩).hash := by
        rcases Nat.lt_or_eq_of_le (Nat.lt_succ_iff.mp hj) with h | h
        · exact le_of_lt (List.pairwise_iff_getElem.mp hstrict j i (by omega) hi h)
        · subst h
          exact le_refl _
      simpa using Nat.not_lt.mpr hle
  · rw [if_neg hc]
    refine List.findIdx_eq_length.mpr ?_
    intro x hx
    rcases List.mem_iff_getElem.mp hx with ⟨j, hj, rfl⟩
    have hle : (σ.membersSet.get ⟨j, hj⟩).hash ≤ (σ.membersSet.get ⟨i, hi⟩).hash := by
      rcases Nat.lt_or_eq_of_le (show j ≤ i by omega) with h | h
      · exact le_of_lt (List.pairwise_iff_getElem.mp hstrict j i (by omega) hi h)
      · subst h
        exact le_refl _
    simpa using Nat.not_lt.mpr hle

theorem GetNext_at {σ : State} (hInv : StateInv σ)
    (hnd : (σ.membersSet.map (fun e => e.hash)).Nodup)
    {i : Nat} (hi : i < σ.membersSet.length) :
    GetNext σ ((σ.membersSet.getD i default).mem.id) =
      .ok ((σ.membersSet.getD ((i + 1) % σ.membersSet.length) default).mem) := by
  have hlive := ring_live hInv hi
  have hhash : σ.config.hasher ((σ.membersSet.getD i default).mem.id) =
      (σ.membersSet.getD i default).hash :=
    (hInv.entryHash _ (ring_getD_mem hi)).symm
  unfold GetNext
  rw [if_pos hlive]
  show Except.ok ((σ.membersSet.getD
      (if searchGt σ.membersSet (σ.config.hasher ((σ.membersSet.getD i default).mem.id)) =
          σ.membersSet.length then 0
        else searchGt σ.membersSet (σ.config.hasher ((σ.membersSet.getD i default).mem.id)))
      default).mem) = _
  rw [hhash, searchGt_at hInv hnd hi]
  by_cases hc : i + 1 < σ.membersSet.length
  · rw [if_pos hc, if_neg (by omega), Nat.mod_eq_of_lt hc]
  · rw [if_neg hc, if_pos rfl,
      show i + 1 = σ.membersSet.length from by omega, Nat.mod_self]

theorem GetPrev_at {σ : State} (hInv : StateInv σ)
    (hnd : (σ.membersSet.map (fun e => e.hash)).Nodup)
    {i : Nat} (hi : i < σ.membersSet.length) :
    GetPrev σ ((σ.membersSet.getD i default).mem.id) =
      .ok ((σ.membersSet.getD
        ((i + σ.membersSet.length - 1) % σ.membersSet.length) default).mem) := by
  have hlive := ring_live hInv hi
  have hhash : σ.config.hasher ((σ.membersSet.getD i default).mem.id) =
      (σ.membersSet.getD i default).hash :=
    (hInv.entryHash _ (ring_getD_mem hi)).symm
  unfold GetPrev
  rw [if_pos hlive]
  show Except.ok ((σ.membersSet.getD
      (if searchGe σ.membersSet (σ.config.hasher ((σ.membersSet.getD i default).mem.id)) = 0
        then σ.membersSet.length - 1
        else searchGe σ.membersSet (σ.config.hasher ((σ.membersSet.getD i default).mem.id)) - 1)
      default).mem) = _
  rw [hhash, searchGe_at hInv hnd hi]
  by_cases h0 : i = 0
  · subst h0
    rw [if_pos rfl,
      show 0 + σ.membersSet.length - 1 = σ.membersSet.length - 1 from by omega,
      Nat.mod_eq_of_lt (by omega)]
  · rw [if_neg h0,
      show i + σ.membersSet.length - 1 = (i - 1) + σ.membersSet.length from by omega,
      Nat.add_mod_right, Nat.mod_eq_of_lt (by omega)]

/-- Counterexample to C8 as stated: with the pluggable hasher `collideHasher`
(ids "a" and "b" both hash to 5) the two-member state `st5` is reached by a
single `AddMembers` call from a fresh table, yet `GetPrev "a"` answers member
"a" itself while `GetNext "a"` answers member "b" — so
`GetNext (GetPrev "a").id = b ≠ a`: the round trip fails on a ring of size 2
when ring hashes collide. -/
theorem C8_counterexample :
    AddMembers (initState cfg5) [mB, mA] = .ok (some st5) ∧
    st5.members.length = 2 ∧
    GetPrev st5 "a" = .ok mA ∧ mA.id = "a" ∧
    GetNext st5 "a" = .ok mB ∧ mB ≠ mA := by
  refine ⟨add5_eq, by decide, ?_, rfl, ?_, by decide⟩
  · with_unfolding_all rfl
  · with_unfolding_all rfl

/-- C8 (amended: requires the ring hashes to be pairwise distinct, which the
pluggable hasher does not guarantee): in every reachable state whose ring
hashes are pairwise distinct, (1) if there is exactly one live member then
`GetNext` and `GetPrev` on its identity both return that member itself, and
(2) every live member is recovered by the round trip `GetNext ∘ GetPrev` and
by `GetPrev ∘ GetNext` on its identity. -/
theorem C8_ring_round_trip (σ : State) (hr : Reachable σ)
    (hnd : (σ.membersSet.map (fun e => e.hash)).Nodup) :
    (∀ p ∈ σ.members, σ.members.length = 1 →
      GetNext σ p.2.id = .ok p.2 ∧ GetPrev σ p.2.id = .ok p.2) ∧
    (∀ p ∈ σ.members,
      (∃ q, GetPrev σ p.2.id = .ok q ∧ GetNext σ q.id = .ok p.2) ∧
      (∃ r, GetNext σ p.2.id = .ok r ∧ GetPrev σ r.id = .ok p.2)) := by
  have hInv := reachable_inv hr
  have hidnd := ring_ids_nodup hInv hnd
  have hlen := store_ring_length hInv hidnd
  have main : ∀ p ∈ σ.members,
      ∃ i, i < σ.membersSet.length ∧ (σ.membersSet.getD i default).mem = p.2 := by
    intro p hp
    rcases hInv.valCoherent p hp with ⟨e, he, hem⟩
    rcases List.mem_iff_get.mp he with ⟨⟨i, hi⟩, hget⟩
    refine ⟨i, hi, ?_⟩
    rw [List.getD_eq_getElem _ _ hi]
    show (σ.membersSet.get ⟨i, hi⟩).mem = p.2
    rw [hget, hem]
  constructor
  · intro p hp h1
    rcases main p hp with ⟨i, hi, hgi⟩
    have hn1 : σ.membersSet.length = 1 := by omega
    have hi0 : i = 0 := by omega
    subst hi0
    have hnx := GetNext_at hInv hnd hi
    have hpv := GetPrev_at hInv hnd hi
    have e1 : (0 + 1) % σ.membersSet.length = 0 := by rw [hn1]
    have e2 : (0 + σ.membersSet.length - 1) % σ.membersSet.length = 0 := by rw [hn1]
    rw [e1, hgi] at hnx
    rw [e2, hgi] at hpv
    exact ⟨hnx, hpv⟩
  · intro p hp
    rcases main p hp with ⟨i, hi, hgi⟩
    have hn1 : 1 ≤ σ.membersSet.length := by omega
    constructor
    · have hpv := GetPrev_at hInv hnd hi
      have hpi : (i + σ.membersSet.length - 1) % σ.membersSet.length <
          σ.membersSet.length := Nat.mod_lt _ (by omega)
      have hnx := GetNext_at hInv hnd hpi
      have e : ((i + σ.membersSet.length - 1) % σ.membersSet.length + 1) %
          σ.membersSet.length = i := by
        rw [Nat.mod_add_mod,
          show i + σ.membersSet.length - 1 + 1 = i + σ.membersSet.length from by omega,
          Nat.add_mod_right]
        exact Nat.mod_eq_of_lt hi
      rw [e, hgi] at hnx
      rw [hgi] at hpv
      exact ⟨_, hpv, hnx⟩
    · have hnx := GetNext_at hInv hnd hi
      have hqi : (i + 1) % σ.membersSet.length < σ.membersSet.length :=
        Nat.mod_lt _ (by omega)
      have hpv := GetPrev_at hInv hnd hqi
      have e : ((i + 1) % σ.membersSet.length + σ.membersSet.length - 1) %
          σ.membersSet.length = i := by
        rw [show (i + 1) % σ.membersSet.length + σ.membersSet.length - 1
              = (i + 1) % σ.membersSet.length + (σ.membersSet.length - 1) from by omega,
          Nat.mod_add_mod,
          show i + 1 + (σ.membersSet.length - 1) = i + σ.membersSet.length from by omega,
          Nat.add_mod_right]
        exact Nat.mod_eq_of_lt hi
      rw [e, hgi] at hpv
      rw [hgi] at hnx
      exact ⟨_, hnx, hpv⟩

/-- Concrete instantiation of the amended C8 at the reachable three-member
state `st1` (hashes 1, 2, 3 — pairwise distinct): the `GetPrev`-then-`GetNext`
round trip on identity "a" recovers member "a". -/
theorem C8_witness :
    (st1.membersSet.map (fun e => e.hash)).Nodup ∧
    (∃ q, GetPrev st1 mA.id = .ok q ∧ GetNext st1 q.id = .ok mA) := by
  have hreach : Reachable st1 :=
    .addM (initState cfgRF3) [mA, mBB, mCCC] st1 (.new cfgRF3 _ rfl) add1_eq
  have hnd : (st1.membersSet.map (fun e => e.hash)).Nodup := by decide
  have h := (C8_ring_round_trip st1 hreach hnd).2 ("a", mA) (by decide)
  exact ⟨hnd, h.1⟩
